import Mathlib

/-!
Shallow embedding of the Prism proof-of-work blockchain node (Rust sources
under src/), together with theorems settling the frozen claims C1 to C10.

Conventions of the embedding:

* `H256` (32 bytes, big-endian, totally ordered by value — the type lives in
  crypto/hash.rs, which is not part of the provided sources; modelled from the
  spec as its numeric value) and `H160` are represented as `Nat`.
* Rust `HashMap<K, V>` is modelled as an association list `List (K × V)`
  whose lookup takes the first binding; `alInsert` (replace-or-insert) and
  `alErase` (remove the binding of a key) mirror `HashMap::insert` and
  `HashMap::remove`.  Iteration order of a `HashMap` is unspecified in Rust,
  so iterating the association list in list order is a sound determinization.
* The cryptographic primitives (SHA-256 based hashing of headers and
  transactions, Ed25519 signature verification, address derivation from a
  public key) are kept abstract: the definitions are parametrised by
  functions `hashHeader`, `hashTx`, `hashSTx`, `sigVerify`, `addrOfPk`.
  Concrete executable instances are supplied in witnesses and
  counterexamples.
-/

set_option maxRecDepth 10000

namespace Prism

/-- Hash values (crypto/hash.rs `H256`, not under src/). Modelled from the
spec: 32 bytes big-endian with total ordering by value, i.e. a natural
number; `<` and `≤` on `Nat` are exactly the big-endian byte-string order. -/
abbrev H256 := Nat

/-- Addresses (crypto/address.rs `H160`): 20 bytes, big-endian order by
value, modelled as a natural number. -/
abbrev H160 := Nat

/-- Lookup in an association list modelling `HashMap::get`: first binding of
the key wins. -/
def alookup {K V : Type} [DecidableEq K] : List (K × V) → K → Option V
  | [], _ => none
  | e :: rest, k => if e.1 = k then some e.2 else alookup rest k

/-- Insert modelling `HashMap::insert`: any previous binding of the key is
replaced. (The new binding is put in front; map order is unspecified in
Rust, so only the extensional content matters.) -/
def alInsert {K V : Type} [DecidableEq K] (m : List (K × V)) (k : K) (v : V) :
    List (K × V) :=
  (k, v) :: m.filter (fun e => decide (e.1 ≠ k))

/-- Removal modelling `HashMap::remove`: drops the binding of the key. -/
def alErase {K V : Type} [DecidableEq K] (m : List (K × V)) (k : K) :
    List (K × V) :=
  m.eraseP (fun e => decide (e.1 = k))

/-! ## crypto/merkle.rs: Merkle trees

The source builds a complete binary tree in a flat array of `2 * sz - 1`
nodes (root at index 0, children of `p` at `2p+1`, `2p+2`), where `sz` is
the least power of two at least the number of leaves; `valid` flags mark
filled nodes.  The build, proof and verify loops are rendered as structural
recursions below, one recursive call per loop iteration.  The tree is
generic over the leaf type and the node hash (`SHA256(left ++ right)` in
the source, abstracted as `ph`). -/

/-- crypto/merkle.rs: the `while _sz < n { _sz <<= 1 }` doubling loop of
`MerkleTree::new`, fused with the counting variant of `verify` (which also
tracks `cnt`, the expected proof length).  The `0 < sz` conjunct is the
loop variant; every call site starts from `sz = 1` and doubling keeps the
argument positive, so it never changes the result. -/
def szcntGo (n sz cnt : Nat) : Nat × Nat :=
  if 0 < sz ∧ sz < n then szcntGo n (2 * sz) (cnt + 1) else (sz, cnt)
termination_by n - sz
decreasing_by omega

/-- crypto/merkle.rs `MerkleTree::new`: the next power of two of the leaf
count (starting the doubling from 1). -/
def nextPow2 (n : Nat) : Nat := (szcntGo n 1 0).1

/-- crypto/merkle.rs `MerkleTree::new` leaf-filling loop: for each datum,
write its hash at `i + sz - 1` and mark the slot valid. -/
def fillLeaves {α H : Type} (hash : α → H) :
    List α → Nat → Nat → Array H → Array Bool → Array H × Array Bool
  | [], _, _, tree, valid => (tree, valid)
  | d :: ds, sz, i, tree, valid =>
      fillLeaves hash ds sz (i + 1) (tree.setD (i + sz - 1) (hash d))
        (valid.setD (i + sz - 1) true)

/-- crypto/merkle.rs `MerkleTree::new` inner level loop at level size
`lsz`, current offset `i` (stepping by 2): left node `lsz - 1 + i`, its
right sibling, parent `(l - 1) / 2`; break at the first invalid left node;
if only the left child is valid, copy it over the right sibling before
hashing the pair into the parent. -/
def buildPairs {H : Type} [Inhabited H] (ph : H → H → H) (lsz : Nat)
    (i : Nat) (tree : Array H) (valid : Array Bool) : Array H × Array Bool :=
  if i < lsz then
    let l := lsz - 1 + i
    let r := l + 1
    let p := (l - 1) / 2
    if valid.getD l false = false then (tree, valid)
    else if valid.getD r false = false then
      let tree1 := tree.setD r (tree.getD l default)
      let buf := ph (tree1.getD l default) (tree1.getD r default)
      buildPairs ph lsz (i + 2) (tree1.setD p buf) (valid.setD p true)
    else
      let buf := ph (tree.getD l default) (tree.getD r default)
      buildPairs ph lsz (i + 2) (tree.setD p buf) (valid.setD p true)
  else (tree, valid)
termination_by lsz - i
decreasing_by all_goals omega

/-- crypto/merkle.rs `MerkleTree::new` outer loop: process levels from the
leaves up (`while _sz > 1`), halving the level size each pass. -/
def buildLevels {H : Type} [Inhabited H] (ph : H → H → H) (lsz : Nat)
    (tree : Array H) (valid : Array Bool) : Array H × Array Bool :=
  if 1 < lsz then
    let tv := buildPairs ph lsz 0 tree valid
    buildLevels ph (lsz / 2) tv.1 tv.2
  else (tree, valid)
termination_by lsz
decreasing_by omega

/-- crypto/merkle.rs `MerkleTree`: flat node array, validity flags, and the
saved power-of-two leaf-level size. -/
structure MerkleTree (H : Type) where
  tree : Array H
  valid : Array Bool
  sz : Nat

/-- crypto/merkle.rs `MerkleTree::new`. -/
def MerkleTree.new {α H : Type} [Inhabited H] (hash : α → H)
    (ph : H → H → H) (data : List α) : MerkleTree H :=
  let sz := nextPow2 data.length
  let tree0 : Array H := Array.mkArray (2 * sz - 1) default
  let valid0 : Array Bool := Array.mkArray (2 * sz - 1) false
  let tv := fillLeaves hash data sz 0 tree0 valid0
  let tv2 := buildLevels ph sz tv.1 tv.2
  ⟨tv2.1, tv2.2, sz⟩

/-- crypto/merkle.rs `MerkleTree::root`: the node at index 0. -/
def MerkleTree.root {H : Type} [Inhabited H] (t : MerkleTree H) : H :=
  t.tree.getD 0 default

/-- crypto/merkle.rs `MerkleTree::proof` climb loop: from a leaf's tree
index up to the root, pushing the sibling at each level (right sibling when
the index is odd, i.e. a left child; left sibling otherwise). -/
def proofGo {H : Type} [Inhabited H] (t : MerkleTree H) (idx : Nat)
    (pf : List H) : List H :=
  if 0 < idx then
    let p := (idx - 1) / 2
    let s := if idx % 2 = 1 then idx + 1 else idx - 1
    proofGo t p (pf ++ [t.tree.getD s default])
  else pf
termination_by idx
decreasing_by omega

/-- crypto/merkle.rs `MerkleTree::proof`: climb from leaf slot
`sz - 1 + index` if it is a valid leaf, else return the empty proof. -/
def MerkleTree.proof {H : Type} [Inhabited H] (t : MerkleTree H)
    (index : Nat) : List H :=
  let idx := t.sz - 1 + index
  if idx < 2 * t.sz - 1 ∧ t.valid.getD idx false = true then proofGo t idx []
  else []

/-- crypto/merkle.rs `verify` folding loop: combine the running hash with
each proof element, on the left or right according to the parity of the
running index. -/
def verGo {H : Type} (ph : H → H → H) : List H → Nat → H → H
  | [], _, curr => curr
  | h :: rest, idx, curr =>
      if idx % 2 = 0 then verGo ph rest (idx / 2) (ph curr h)
      else verGo ph rest (idx / 2) (ph h curr)

/-- crypto/merkle.rs `verify`: recompute the expected proof length `cnt`
from `leaf_size`, reject an out-of-range index or wrong-length proof, else
fold the proof and compare with the root. -/
def verify {H : Type} [DecidableEq H] (ph : H → H → H) (root datum : H)
    (pf : List H) (index leaf_size : Nat) : Bool :=
  let sc := szcntGo leaf_size 1 0
  if leaf_size ≤ index ∨ pf.length ≠ sc.2 then false
  else decide (root = verGo ph pf index datum)

/-! ## Data model (block.rs, transaction.rs) -/

/-- transaction.rs `Transaction`: recipient, value (u64), account nonce
(i32, the intended post-state nonce of the sender). -/
structure Transaction where
  recipient_address : H160
  value : Nat
  account_nonce : Int
deriving DecidableEq, Repr

/-- transaction.rs `SignedTransaction`: a transaction plus signature and
public key byte strings. -/
structure SignedTransaction where
  transaction : Transaction
  signature : List Nat
  public_key : List Nat
deriving DecidableEq, Repr

/-- block.rs `Header`. -/
structure Header where
  parent : H256
  nonce : Nat
  difficulty : H256
  timestamp : Nat
  merkle_root : H256
deriving DecidableEq, Repr

/-- block.rs `Content`: the ordered transaction list of a block. -/
structure Content where
  transactions : List SignedTransaction
deriving DecidableEq, Repr

/-- block.rs `Block`. -/
structure Block where
  header : Header
  content : Content
deriving DecidableEq, Repr

/-- block.rs `AccountState`. -/
structure AccountState where
  nonce : Int
  balance : Nat
deriving DecidableEq, Repr

/-- block.rs `State`: ordered address list plus per-address account states. -/
structure State where
  address_list : List H160
  account_state : List (H160 × AccountState)
deriving DecidableEq, Repr

/-- block.rs `BLOCK_CAPACITY`. -/
def BLOCK_CAPACITY : Nat := 4

/-- txgenerator.rs `TX_MEMPOOL_CAPACITY`. -/
def TX_MEMPOOL_CAPACITY : Nat := 10

/-- Modelled from the spec: `INIT_COINS` is referenced by blockchain.rs from
the block module but its defining line is not under src/; the spec fixes
`INIT_COINS = 25`. -/
def INIT_COINS : Nat := 25

/-- block.rs `impl Hashable for Block`: a block's hash is its header's hash.
The SHA-256-over-bincode header hash itself is the abstract `hashHeader`. -/
def blockHash (hashHeader : Header → H256) (b : Block) : H256 :=
  hashHeader b.header

/-! ## transaction.rs: validity, erasability, state update -/

/-- transaction.rs `SignedTransaction::is_erasable`, parametrised by the
abstract transaction hash, signature verification and address derivation.
Erasable iff the signature fails, or (when the sender has an account) the
nonce is stale or the balance insufficient. -/
def is_erasable (hashTx : Transaction → H256)
    (sigVerify : List Nat → H256 → List Nat → Bool)
    (addrOfPk : List Nat → H160) (t : SignedTransaction) (s : State) : Bool :=
  let address := addrOfPk t.public_key
  if ¬ sigVerify t.public_key (hashTx t.transaction) t.signature then true
  else
    match alookup s.account_state address with
    | some peer_state =>
        if t.transaction.account_nonce ≤ peer_state.nonce then true
        else if peer_state.balance < t.transaction.value then true
        else false
    | none => false

/-- transaction.rs `SignedTransaction::is_valid`: not erasable, and when the
sender has an account its nonce must be exactly one more than the account
nonce.  NOTE (faithful to the source): when the sender has no account the
nonce check is skipped and the function returns `true`. -/
def is_valid (hashTx : Transaction → H256)
    (sigVerify : List Nat → H256 → List Nat → Bool)
    (addrOfPk : List Nat → H160) (t : SignedTransaction) (s : State) : Bool :=
  let address := addrOfPk t.public_key
  if is_erasable hashTx sigVerify addrOfPk t s then false
  else
    match alookup s.account_state address with
    | some peer_state =>
        if t.transaction.account_nonce ≠ peer_state.nonce + 1 then false
        else true
    | none => true

/-- transaction.rs `SignedTransaction::update_state`: if the sender has an
account, assert the nonce relation, debit the value and bump the nonce;
otherwise do nothing.  The source's `assert_eq!` panic is modelled as
`none`; at every call site the update runs only after `is_valid`, which
makes the assertion hold. -/
def update_state (addrOfPk : List Nat → H160) (t : SignedTransaction)
    (s : State) : Option State :=
  let address := addrOfPk t.public_key
  match alookup s.account_state address with
  | some peer_state =>
      if peer_state.nonce + 1 = t.transaction.account_nonce then
        some { s with
          account_state := alInsert s.account_state address
            ⟨peer_state.nonce + 1, peer_state.balance - t.transaction.value⟩ }
      else none
  | none => some s

/-! ## crypto/address.rs: H160 from a ring digest -/

/-- crypto/address.rs `impl From<ring digest Digest> for H160`: the source
runs `raw_hash[0..20].copy_from_slice(input.as_ref())`, and
`copy_from_slice` panics unless the source slice length equals the
destination length 20.  The panic is modelled as `none`; on a 20-byte input
the 20-byte buffer receives exactly those bytes. -/
def h160FromDigest (digest : List Nat) : Option (List Nat) :=
  if digest.length = 20 then some digest else none

/-- Output length in bytes of SHA-256, the algorithm used at every
`ring digest digest(SHA256, _)` call site. -/
def SHA256_OUTPUT_LEN : Nat := 32

/-! ## blockchain.rs: the chain store -/

/-- blockchain.rs `Blockchain`: block map, height map (`block_len`), state
map, and the tip (`head`). -/
structure Blockchain where
  blocks : List (H256 × Block)
  block_len : List (H256 × Nat)
  block_states : List (H256 × State)
  head : H256
deriving Repr

/-- blockchain.rs `Blockchain::new`: the genesis header — zero parent and
nonce, difficulty bytes 0x10 followed by 31 zero bytes (big-endian value
2 ^ 252), zero timestamp and merkle root. -/
def genesisHeader : Header := ⟨0, 0, 2 ^ 252, 0, 0⟩

/-- blockchain.rs `Blockchain::new`: the genesis block has empty content. -/
def genesisBlock : Block := ⟨genesisHeader, ⟨[]⟩⟩

/-- blockchain.rs `Blockchain::new`: the genesis state seeds one account of
`INIT_COINS` and nonce 0 for each of the three deterministic key pairs
(key_pair::frombyte 0, 1, 2).  The address of the key pair derived from
byte `i` is abstracted as `addrOfKeyByte i`. -/
def genesisState (addrOfKeyByte : Nat → H160) : State :=
  { address_list := (List.range 3).map addrOfKeyByte
    account_state :=
      (List.range 3).foldl
        (fun m i => alInsert m (addrOfKeyByte i) ⟨0, INIT_COINS⟩) [] }

/-- blockchain.rs `Blockchain::new`: genesis-only chain, all three maps
keyed by the genesis hash, head at genesis, height 1. -/
def Blockchain.new (hashHeader : Header → H256) (addrOfKeyByte : Nat → H160) :
    Blockchain :=
  let head := blockHash hashHeader genesisBlock
  { blocks := [(head, genesisBlock)]
    block_len := [(head, 1)]
    block_states := [(head, genesisState addrOfKeyByte)]
    head := head }

/-- blockchain.rs `Blockchain::insert`: if the parent is bound in `blocks`,
store the block, its height (parent height + 1) and the supplied state, and
move the head iff the new height is strictly greater than the head's; the
boolean reports admission.  The two `unwrap`s on `block_len` are modelled
with `getD 0`; on every chain built by `new` and `insert` the three maps
have the same keys, so the default is never taken.  As in the source, the
head's height is read from the already-updated height map. -/
def Blockchain.insert (hashHeader : Header → H256) (c : Blockchain)
    (b : Block) (s : State) : Blockchain × Bool :=
  let curr_block_hash := blockHash hashHeader b
  let prev_block_hash := b.header.parent
  match alookup c.blocks prev_block_hash with
  | some _ =>
      let blocks' := alInsert c.blocks curr_block_hash b
      let new_len := (alookup c.block_len prev_block_hash).getD 0 + 1
      let block_len' := alInsert c.block_len curr_block_hash new_len
      let block_states' := alInsert c.block_states curr_block_hash s
      let head' :=
        if (alookup block_len' c.head).getD 0 < new_len then curr_block_hash
        else c.head
      ({ blocks := blocks', block_len := block_len',
         block_states := block_states', head := head' }, true)
  | none => (c, false)

/-- blockchain.rs `Blockchain::tip`. -/
def Blockchain.tip (c : Blockchain) : H256 := c.head

/-- blockchain.rs `Blockchain::contains_key`. -/
def Blockchain.contains_key (c : Blockchain) (h : H256) : Bool :=
  (alookup c.blocks h).isSome

/-! ## network/worker.rs: per-block validation and the commit fixpoint -/

/-- A transaction mempool (`HashMap<H256, SignedTransaction>`). -/
abbrev Mempool := List (H256 × SignedTransaction)

/-- network/worker.rs `verify_block` inner loop: apply one sender's bucket
of transactions in order, failing on the first invalid one.  The source's
`tx.update_state` runs only after `is_valid` succeeded, which guarantees
its assertion; the modelled `none` of `update_state` is propagated. -/
def applyBucket (hashTx : Transaction → H256)
    (sigVerify : List Nat → H256 → List Nat → Bool)
    (addrOfPk : List Nat → H160) :
    List SignedTransaction → State → Option State
  | [], s => some s
  | tx :: rest, s =>
      if is_valid hashTx sigVerify addrOfPk tx s then
        match update_state addrOfPk tx s with
        | some s' => applyBucket hashTx sigVerify addrOfPk rest s'
        | none => none
      else none

/-- network/worker.rs `verify_block` outer loop over `address_list`: the
bucket of an address holds the block's transactions whose sender derives to
that address, sorted by ascending nonce (`Vec::sort_by` is stable; modelled
by the stable `List.mergeSort`). -/
def applyAddresses (hashTx : Transaction → H256)
    (sigVerify : List Nat → H256 → List Nat → Bool)
    (addrOfPk : List Nat → H160) (txs : List SignedTransaction) :
    List H160 → State → Option State
  | [], s => some s
  | a :: rest, s =>
      let bucket :=
        (txs.filter (fun tx => decide (addrOfPk tx.public_key = a))).mergeSort
          (fun x y =>
            decide (x.transaction.account_nonce ≤ y.transaction.account_nonce))
      match applyBucket hashTx sigVerify addrOfPk bucket s with
      | some s' => applyAddresses hashTx sigVerify addrOfPk txs rest s'
      | none => none

/-- network/worker.rs `verify_block`: bucket the block's transactions by
sender address (only addresses present in the parent state's address list
get a bucket), then apply the buckets in address-list order; return the
resulting state, or `none` on the first invalid transaction. -/
def verify_block (hashTx : Transaction → H256)
    (sigVerify : List Nat → H256 → List Nat → Bool)
    (addrOfPk : List Nat → H160) (b : Block) (st : State) : Option State :=
  applyAddresses hashTx sigVerify addrOfPk b.content.transactions
    st.address_list st

/-- miner.rs / worker.rs: remove every transaction of a committed block
from the mempool (`tx_mempool.remove(&tx.hash())` per transaction). -/
def drainTxs (hashSTx : SignedTransaction → H256) (pool : Mempool)
    (txs : List SignedTransaction) : Mempool :=
  txs.foldl (fun p tx => alErase p (hashSTx tx)) pool

/-- The state stored for a hash; the source `unwrap`s (the lookup is made
under `contains_key`, and on reachable chains every stored block has a
stored state), so the default empty state is never taken. -/
def getStateD (c : Blockchain) (h : H256) : State :=
  (alookup c.block_states h).getD ⟨[], []⟩

/-- Result of one pass of the worker's commit fixpoint: the updated chain
and mempool, the hashes committed during the pass (`committed_hashes`), and
the `no_commits` flag. -/
structure ScanResult where
  chain : Blockchain
  pool : Mempool
  committed : List H256
  no_commits : Bool

/-- network/worker.rs `worker_loop`, `Message::Blocks` commit fixpoint, one
pass over the orphan pool (lines 214-241): an orphan is committed when its
parent is in the chain, its key is at most the parent's difficulty, and
`verify_block` succeeds; on commit the chain gets the block and the new
state, and the block's transactions are drained from the mempool iff its
parent equals the tip read after the insertion. -/
def commitScan (hashHeader : Header → H256) (hashTx : Transaction → H256)
    (sigVerify : List Nat → H256 → List Nat → Bool)
    (addrOfPk : List Nat → H160) (hashSTx : SignedTransaction → H256) :
    Blockchain → Mempool → List (H256 × Block) → ScanResult
  | chain, pool, [] => ⟨chain, pool, [], true⟩
  | chain, pool, (block_hash, block) :: rest =>
      let parent_hash := block.header.parent
      match alookup chain.blocks parent_hash with
      | some parent_block =>
          if block_hash ≤ parent_block.header.difficulty then
            match verify_block hashTx sigVerify addrOfPk block
                (getStateD chain parent_hash) with
            | some new_state =>
                let chain' := (chain.insert hashHeader block new_state).1
                let pool' :=
                  if parent_hash = chain'.tip then
                    drainTxs hashSTx pool block.content.transactions
                  else pool
                let r := commitScan hashHeader hashTx sigVerify addrOfPk
                  hashSTx chain' pool' rest
                ⟨r.chain, r.pool, block_hash :: r.committed, false⟩
            | none =>
                commitScan hashHeader hashTx sigVerify addrOfPk hashSTx
                  chain pool rest
          else
            commitScan hashHeader hashTx sigVerify addrOfPk hashSTx
              chain pool rest
      | none =>
          commitScan hashHeader hashTx sigVerify addrOfPk hashSTx
            chain pool rest

section Worker

variable (hashHeader : Header → H256) (hashTx : Transaction → H256)
variable (sigVerify : List Nat → H256 → List Nat → Bool)
variable (addrOfPk : List Nat → H160) (hashSTx : SignedTransaction → H256)

/-- A pass that committed something committed the key of one of the scanned
orphan entries (used as the variant of the fixpoint loop: removing the
committed keys strictly shrinks the orphan pool). -/
theorem commitScan_progress :
    ∀ (l : List (H256 × Block)) (chain : Blockchain) (pool : Mempool),
      (commitScan hashHeader hashTx sigVerify addrOfPk hashSTx
        chain pool l).no_commits = false →
      ∃ e ∈ l,
        ((commitScan hashHeader hashTx sigVerify addrOfPk hashSTx
          chain pool l).committed.contains e.1) = true := by
  intro l
  induction l with
  | nil => intro chain pool h; simp [commitScan] at h
  | cons e rest ih =>
      intro chain pool h
      obtain ⟨bh, b⟩ := e
      rcases hpar : alookup chain.blocks b.header.parent with _ | pb
      · simp only [commitScan, hpar] at h ⊢
        obtain ⟨e', he', hc⟩ := ih chain pool h
        exact ⟨e', List.mem_cons_of_mem _ he', hc⟩
      · by_cases hle : bh ≤ pb.header.difficulty
        · rcases hvb : verify_block hashTx sigVerify addrOfPk b
              (getStateD chain b.header.parent) with _ | ns
          · simp only [commitScan, hpar, hle, if_true, hvb] at h ⊢
            obtain ⟨e', he', hc⟩ := ih chain pool h
            exact ⟨e', List.mem_cons_of_mem _ he', hc⟩
          · refine ⟨(bh, b), List.mem_cons_self _ _, ?_⟩
            simp [commitScan, hpar, hle, hvb]
        · simp only [commitScan, hpar, hle, if_false] at h ⊢
          obtain ⟨e', he', hc⟩ := ih chain pool h
          exact ⟨e', List.mem_cons_of_mem _ he', hc⟩

/-- network/worker.rs `worker_loop`, `Message::Blocks` commit fixpoint
(lines 209-251): repeat passes over the orphan pool, after each pass remove
the committed blocks from the pool, and stop as soon as a pass commits
nothing.  Returns the final chain, mempool and orphan pool. -/
def commitLoop (chain : Blockchain) (pool : Mempool)
    (orphans : List (H256 × Block)) :
    Blockchain × Mempool × List (H256 × Block) :=
  let r := commitScan hashHeader hashTx sigVerify addrOfPk hashSTx
    chain pool orphans
  let orphans' := orphans.filter (fun e => !(r.committed.contains e.1))
  if _h : r.no_commits then (r.chain, r.pool, orphans')
  else commitLoop r.chain r.pool orphans'
termination_by orphans.length
decreasing_by
  refine List.length_filter_lt_length_iff_exists.2 ?_
  obtain ⟨e, he, hc⟩ := commitScan_progress hashHeader hashTx sigVerify
    addrOfPk hashSTx orphans chain pool (Bool.eq_false_iff.2 _h)
  exact ⟨e, he, by simpa using hc⟩

/-- network/worker.rs `worker_loop`, one block of a `Message::Blocks`
delivery (lines 191-263): skip a known block; if the parent is in the
chain, put the block in the orphan pool and run the commit fixpoint; else
just orphan it (the `GetBlocks` request for an unknown parent only touches
the network).  Returns the chain, mempool and orphan pool. -/
def blocksStep (chain : Blockchain) (pool : Mempool)
    (orphans : List (H256 × Block)) (b : Block) :
    Blockchain × Mempool × List (H256 × Block) :=
  let parent_hash := b.header.parent
  let block_hash := blockHash hashHeader b
  if (alookup chain.blocks block_hash).isSome ∨
      (alookup orphans block_hash).isSome then (chain, pool, orphans)
  else if (alookup chain.blocks parent_hash).isSome then
    commitLoop hashHeader hashTx sigVerify addrOfPk hashSTx chain pool
      (alInsert orphans block_hash b)
  else (chain, pool, alInsert orphans block_hash b)

/-- network/worker.rs `worker_loop`, `Message::Transactions` handler (lines
320-341): verify the signature, and insert a not-yet-known transaction into
the mempool keyed by its hash.  The source performs no capacity check on
this path. -/
def txRecvStep (pool : Mempool) (t : SignedTransaction) : Mempool :=
  if sigVerify t.public_key (hashTx t.transaction) t.signature then
    if (alookup pool (hashSTx t)).isSome then pool
    else alInsert pool (hashSTx t) t
  else pool

/-- txgenerator.rs `gen_loop` mempool insertion (lines 147-159): when the
pool is at or above `TX_MEMPOOL_CAPACITY`, first remove a randomly chosen
existing key (the choice, `keys().choose(rng)`, is abstracted as the
`victim` argument), then insert the new transaction keyed by its hash. -/
def genInsert (pool : Mempool) (t : SignedTransaction) (victim : H256) :
    Mempool :=
  let pool1 :=
    if TX_MEMPOOL_CAPACITY ≤ pool.length then alErase pool victim else pool
  alInsert pool1 (hashSTx t) t

/-- miner.rs `miner_loop` nonce search (lines 190-195): up to 1000 fresh
random nonces (the random draws are the `rand` list), stopping early as
soon as the header hash drops below the difficulty. -/
def nonceSearch : Block → List Nat → Block
  | b, [] => b
  | b, n :: rest =>
      let b' : Block := ⟨{ b.header with nonce := n }, b.content⟩
      if blockHash hashHeader b' < b'.header.difficulty then b'
      else nonceSearch b' rest

/-- miner.rs `miner_loop`, one mining iteration (lines 161-215): read the
tip, its difficulty and state; if the collected content fills a block,
assemble the header (parent := tip, difficulty := parent difficulty,
merkle root over the content) and run the nonce search; if the final hash
is below the difficulty, insert the block with the collected state, drain
its transactions from the mempool, and report it.  `collect_txs` only
selects transactions and produces the post-state — its result is the
`(content, new_state)` argument pair here; its mempool evictions do not
interact with the admission decision. -/
def minerStep (merklePairHash : H256 → H256 → H256) (chain : Blockchain)
    (pool : Mempool) (content : Content) (new_state : State) (r0 : Nat)
    (rand : List Nat) (timestamp : Nat) :
    Blockchain × Mempool × Option Block :=
  let parent := chain.tip
  match alookup chain.blocks parent, alookup chain.block_states parent with
  | some parent_block, some _parent_state =>
      let difficulty := parent_block.header.difficulty
      if content.transactions.length = 0 then (chain, pool, none)
      else if content.transactions.length < BLOCK_CAPACITY then
        (chain, pool, none)
      else
        let merkle_root :=
          (MerkleTree.new hashSTx merklePairHash content.transactions).root
        let block0 : Block :=
          ⟨⟨parent, r0, difficulty, timestamp, merkle_root⟩, content⟩
        let block := nonceSearch hashHeader block0 rand
        if blockHash hashHeader block < difficulty then
          ((chain.insert hashHeader block new_state).1,
           drainTxs hashSTx pool content.transactions, some block)
        else (chain, pool, none)
  | _, _ => (chain, pool, none)

end Worker

/-! ## Admission traces

For the head-selection claim we run `Blockchain::insert` over an arbitrary
operation sequence while recording the admission trace: the hash of every
block whose insertion returned `true`, in order (the genesis hash first).
The trace is specification bookkeeping only — it does not influence the
chain. -/

/-- Fold a list of `insert` calls over a chain, recording the hashes of the
admitted blocks in order. -/
def runInserts (hashHeader : Header → H256) :
    Blockchain → List H256 → List (Block × State) → Blockchain × List H256
  | c, tr, [] => (c, tr)
  | c, tr, (b, s) :: rest =>
      let r := c.insert hashHeader b s
      runInserts hashHeader r.1
        (if r.2 then tr ++ [blockHash hashHeader b] else tr) rest

/-- An executable injective header hash with no zero value and no fixpoint
through the parent field, used to instantiate the abstract `hashHeader` in
witnesses: a nested Cantor pairing of the five header fields, plus one. -/
def encHeader (h : Header) : Nat :=
  Nat.pair h.parent
    (Nat.pair h.nonce
      (Nat.pair h.difficulty (Nat.pair h.timestamp h.merkle_root))) + 1

/-! ## Association-list map lemmas -/

theorem alookup_alInsert_self {K V : Type} [DecidableEq K]
    (m : List (K × V)) (k : K) (v : V) :
    alookup (alInsert m k v) k = some v := by
  simp [alInsert, alookup]

theorem alookup_filter_ne {K V : Type} [DecidableEq K]
    (m : List (K × V)) (k h : K) (hne : h ≠ k) :
    alookup (m.filter (fun e => decide (e.1 ≠ k))) h = alookup m h := by
  induction m with
  | nil => rfl
  | cons e rest ih =>
      rw [List.filter_cons]
      by_cases hek : e.1 = k
      · have hd : (decide (e.1 ≠ k)) = false := by simp [hek]
        rw [hd, if_neg Bool.false_ne_true]
        have hne2 : ¬ e.1 = h := by rw [hek]; exact fun hh => hne hh.symm
        rw [ih]
        simp only [alookup, hne2, if_false]
      · have hd : (decide (e.1 ≠ k)) = true := by simp [hek]
        rw [hd, if_pos rfl]
        by_cases heh : e.1 = h
        · simp only [alookup, heh, if_true]
        · simp only [alookup, heh, if_false, ih]

theorem alookup_alInsert_ne {K V : Type} [DecidableEq K]
    (m : List (K × V)) (k : K) (v : V) (h : K) (hne : h ≠ k) :
    alookup (alInsert m k v) h = alookup m h := by
  have : k ≠ h := fun hh => hne hh.symm
  simp only [alInsert, alookup, this, if_false]
  exact alookup_filter_ne m k h hne

theorem alookup_alInsert_of_eq {K V : Type} [DecidableEq K]
    (m : List (K × V)) (k : K) (v : V) (hv : alookup m k = some v) (h : K) :
    alookup (alInsert m k v) h = alookup m h := by
  by_cases hk : h = k
  · subst hk; rw [alookup_alInsert_self, hv]
  · exact alookup_alInsert_ne m k v h hk

theorem alookup_isSome_iff_mem {K V : Type} [DecidableEq K]
    (m : List (K × V)) (k : K) :
    (alookup m k).isSome = true ↔ k ∈ m.map Prod.fst := by
  induction m with
  | nil => simp [alookup]
  | cons e rest ih =>
      by_cases hek : e.1 = k
      · simp [alookup, hek]
      · simp only [alookup, hek, if_false, List.map_cons, List.mem_cons, ih]
        constructor
        · exact Or.inr
        · rintro (h | h)
          · exact absurd h.symm hek
          · exact h

theorem alookup_eq_none_iff_not_mem {K V : Type} [DecidableEq K]
    (m : List (K × V)) (k : K) :
    alookup m k = none ↔ k ∉ m.map Prod.fst := by
  rw [← alookup_isSome_iff_mem]
  cases alookup m k <;> simp

theorem length_alErase_of_mem {K V : Type} [DecidableEq K]
    (m : List (K × V)) (k : K) (hk : k ∈ m.map Prod.fst) :
    (alErase m k).length + 1 = m.length := by
  induction m with
  | nil => simp at hk
  | cons e rest ih =>
      by_cases hek : e.1 = k
      · have hd : (decide (e.1 = k)) = true := by simp [hek]
        simp [alErase, List.eraseP_cons, hd]
      · have hk' : k ∈ rest.map Prod.fst := by
          rcases List.mem_cons.1 hk with h | h
          · exact absurd h.symm hek
          · exact h
        have hd : (decide (e.1 = k)) = false := by simp [hek]
        simp only [alErase, List.eraseP_cons, hd, cond_false, List.length_cons]
        have h1 := ih hk'
        simp only [alErase] at h1
        omega

theorem length_alErase_le {K V : Type} [DecidableEq K]
    (m : List (K × V)) (k : K) : (alErase m k).length ≤ m.length :=
  List.length_eraseP_le m

theorem length_alInsert_le {K V : Type} [DecidableEq K]
    (m : List (K × V)) (k : K) (v : V) :
    (alInsert m k v).length ≤ m.length + 1 := by
  simp only [alInsert, List.length_cons]
  have := List.length_filter_le (fun e : K × V => decide (e.1 ≠ k)) m
  omega

/-! ## Claim C3: validity of a transaction from an unknown sender -/

/-- Helper for C3 and C10: against a state with no account for the sender's
address, `is_erasable` reduces to the signature check and `is_valid`
returns exactly the signature verdict — the missing account is not
rejected. -/
theorem is_valid_of_no_account (hashTx : Transaction → H256)
    (sigVerify : List Nat → H256 → List Nat → Bool)
    (addrOfPk : List Nat → H160) (t : SignedTransaction) (s : State)
    (hno : alookup s.account_state (addrOfPk t.public_key) = none) :
    is_valid hashTx sigVerify addrOfPk t s =
      sigVerify t.public_key (hashTx t.transaction) t.signature := by
  cases hsig : sigVerify t.public_key (hashTx t.transaction) t.signature with
  | false => simp [is_valid, is_erasable, hsig]
  | true => simp [is_valid, is_erasable, hsig, hno]

/-- C3, counterexample: a signed transaction whose sender address has no
account in the state, yet whose validity check succeeds (with an
always-accepting signature oracle), contradicting the claim that the check
must fail for an unknown sender. -/
theorem c3_unknown_sender_is_valid_cex :
    alookup (State.account_state ⟨[], []⟩) ((fun _ => 0) ([] : List Nat))
        = none ∧
    is_valid (fun _ => 0) (fun _ _ _ => true) (fun _ => 0)
        ⟨⟨0, 5, 1⟩, [], []⟩ ⟨[], []⟩ = true := by
  exact ⟨rfl, rfl⟩

/-- C3 (amended): for a state with no account entry for the sender's
address, the validity check does not fail for that reason — it returns
exactly the signature verification verdict. -/
theorem c3_is_valid_unknown_sender (hashTx : Transaction → H256)
    (sigVerify : List Nat → H256 → List Nat → Bool)
    (addrOfPk : List Nat → H160) (t : SignedTransaction) (s : State)
    (hno : alookup s.account_state (addrOfPk t.public_key) = none) :
    is_valid hashTx sigVerify addrOfPk t s =
      sigVerify t.public_key (hashTx t.transaction) t.signature :=
  is_valid_of_no_account hashTx sigVerify addrOfPk t s hno

/-- C3, witness: the amended theorem applied at a concrete transaction and
empty state. -/
theorem c3_is_valid_unknown_sender_witness :
    alookup (State.account_state ⟨[], []⟩) ((fun _ => 0) ([] : List Nat))
        = none ∧
    is_valid (fun _ => 0) (fun _ _ _ => false) (fun _ => 0)
        ⟨⟨0, 5, 1⟩, [], []⟩ ⟨[], []⟩ = false :=
  ⟨rfl, c3_is_valid_unknown_sender (fun _ => 0) (fun _ _ _ => false)
    (fun _ => 0) ⟨⟨0, 5, 1⟩, [], []⟩ ⟨[], []⟩ rfl⟩

/-! ## Claim C9: address derivation from a SHA-256 digest -/

/-- C9: the `From` conversion taking a ring digest into an `H160` runs
`copy_from_slice` of the whole digest into a 20-byte window, which panics
(modelled as `none`) whenever the digest is not 20 bytes long — in
particular on every 32-byte SHA-256 digest, at every call site of the
address derivation.  The claim that the derivation is total and returns the
first 20 bytes does not hold on the code. -/
theorem c9_h160_from_sha256_digest_panics (d : List Nat)
    (hd : d.length = SHA256_OUTPUT_LEN) : h160FromDigest d = none := by
  rw [SHA256_OUTPUT_LEN] at hd
  simp [h160FromDigest, hd]

/-- C9, witness: the theorem applied to a concrete 32-byte digest. -/
theorem c9_h160_from_sha256_digest_panics_witness :
    (List.replicate 32 0).length = SHA256_OUTPUT_LEN ∧
    h160FromDigest (List.replicate 32 0) = none :=
  ⟨rfl, c9_h160_from_sha256_digest_panics (List.replicate 32 0) rfl⟩

/-! ## Claim C10: effect and frame of applying a valid transaction -/

/-- Unfolding of `is_valid = true` when the sender has an account: the
signature verifies, the nonce is exactly the account nonce plus one, and
the value is covered by the balance. -/
theorem is_valid_elim (hashTx : Transaction → H256)
    (sigVerify : List Nat → H256 → List Nat → Bool)
    (addrOfPk : List Nat → H160) (t : SignedTransaction) (s : State)
    (ps : AccountState)
    (hacct : alookup s.account_state (addrOfPk t.public_key) = some ps)
    (hvalid : is_valid hashTx sigVerify addrOfPk t s = true) :
    sigVerify t.public_key (hashTx t.transaction) t.signature = true ∧
    t.transaction.account_nonce = ps.nonce + 1 ∧
    t.transaction.value ≤ ps.balance := by
  cases her : is_erasable hashTx sigVerify addrOfPk t s with
  | true => simp [is_valid, her] at hvalid
  | false =>
      simp only [is_valid, her, Bool.false_eq_true, if_false, hacct] at hvalid
      have hn : t.transaction.account_nonce = ps.nonce + 1 := by
        by_contra hne
        simp [hne] at hvalid
      cases hsig : sigVerify t.public_key (hashTx t.transaction) t.signature
        with
      | false => simp [is_erasable, hsig] at her
      | true =>
          simp only [is_erasable, hsig, Bool.not_true, Bool.false_eq_true,
            if_false, hacct] at her
          constructor
          · rfl
          refine ⟨hn, ?_⟩
          by_cases hb : ps.balance < t.transaction.value
          · by_cases hle : t.transaction.account_nonce ≤ ps.nonce <;>
              simp [hle, hb] at her
          · omega

/-- C10 (amended): applying a valid transaction whose sender has an account
in the state debits exactly the value (which the balance covers), bumps the
sender nonce by one, and changes nothing else — no other account and not
the address list; the recipient in particular is never credited.  (When the
sender has no account — which `is_valid` does not rule out, see C3 — the
source's `update_state` silently does nothing; hence the account
hypothesis.) -/
theorem c10_update_state_effect (hashTx : Transaction → H256)
    (sigVerify : List Nat → H256 → List Nat → Bool)
    (addrOfPk : List Nat → H160) (t : SignedTransaction) (s : State)
    (ps : AccountState)
    (hacct : alookup s.account_state (addrOfPk t.public_key) = some ps)
    (hvalid : is_valid hashTx sigVerify addrOfPk t s = true) :
    t.transaction.value ≤ ps.balance ∧
    ∃ s', update_state addrOfPk t s = some s' ∧
      s'.address_list = s.address_list ∧
      alookup s'.account_state (addrOfPk t.public_key) =
        some ⟨ps.nonce + 1, ps.balance - t.transaction.value⟩ ∧
      ∀ a, a ≠ addrOfPk t.public_key →
        alookup s'.account_state a = alookup s.account_state a := by
  obtain ⟨-, hn, hv⟩ :=
    is_valid_elim hashTx sigVerify addrOfPk t s ps hacct hvalid
  refine ⟨hv, ?_⟩
  refine ⟨⟨s.address_list, alInsert s.account_state (addrOfPk t.public_key)
      ⟨ps.nonce + 1, ps.balance - t.transaction.value⟩⟩, ?_, rfl, ?_, ?_⟩
  · simp [update_state, hacct, hn]
  · exact alookup_alInsert_self _ _ _
  · intro a ha
    exact alookup_alInsert_ne _ _ _ a ha

/-- C10, counterexample: a transaction that is valid against the empty
state (unknown sender, accepting signature oracle) leaves the state
unchanged under `update_state` — there is no sender account whose nonce
could have been incremented or balance debited, refuting the claim as
stated (which quantifies over every valid transaction). -/
theorem c10_update_state_unknown_sender_cex :
    is_valid (fun _ => 0) (fun _ _ _ => true) (fun _ => 0)
        ⟨⟨0, 5, 1⟩, [], []⟩ ⟨[], []⟩ = true ∧
    update_state (fun _ => 0) ⟨⟨0, 5, 1⟩, [], []⟩ ⟨[], []⟩
        = some ⟨[], []⟩ ∧
    alookup (State.account_state ⟨[], []⟩) ((fun _ => 0) ([] : List Nat))
        = none :=
  ⟨rfl, rfl, rfl⟩

/-- C10, witness: the amended theorem applied at a funded account. -/
theorem c10_update_state_effect_witness :
    alookup (State.account_state ⟨[0], [(0, ⟨0, 25⟩)]⟩)
        ((fun _ => 0) ([] : List Nat)) = some ⟨0, 25⟩ ∧
    is_valid (fun _ => 0) (fun _ _ _ => true) (fun _ => 0)
        ⟨⟨7, 10, 1⟩, [], []⟩ ⟨[0], [(0, ⟨0, 25⟩)]⟩ = true ∧
    ((⟨⟨7, 10, 1⟩, [], []⟩ : SignedTransaction).transaction.value ≤
        (⟨0, 25⟩ : AccountState).balance ∧
      ∃ s', update_state (fun _ => 0) ⟨⟨7, 10, 1⟩, [], []⟩
            ⟨[0], [(0, ⟨0, 25⟩)]⟩ = some s' ∧
        s'.address_list = (⟨[0], [(0, ⟨0, 25⟩)]⟩ : State).address_list ∧
        alookup s'.account_state ((fun _ => 0) ([] : List Nat)) =
          some ⟨(⟨0, 25⟩ : AccountState).nonce + 1,
            (⟨0, 25⟩ : AccountState).balance -
              (⟨⟨7, 10, 1⟩, [], []⟩ :
                SignedTransaction).transaction.value⟩ ∧
        ∀ a, a ≠ (fun _ => 0) ([] : List Nat) →
          alookup s'.account_state a =
            alookup (State.account_state ⟨[0], [(0, ⟨0, 25⟩)]⟩) a) :=
  ⟨rfl, rfl, c10_update_state_effect (fun _ => 0) (fun _ _ _ => true)
    (fun _ => 0) ⟨⟨7, 10, 1⟩, [], []⟩ ⟨[0], [(0, ⟨0, 25⟩)]⟩ ⟨0, 25⟩ rfl rfl⟩

/-! ## Claim C4: mempool capacity -/

theorem filter_ne_of_alookup_none {K V : Type} [DecidableEq K]
    (m : List (K × V)) (k : K) (hk : alookup m k = none) :
    m.filter (fun e => decide (e.1 ≠ k)) = m := by
  induction m with
  | nil => rfl
  | cons e rest ih =>
      rw [alookup] at hk
      by_cases hek : e.1 = k
      · rw [if_pos hek] at hk; exact absurd hk (by simp)
      · rw [if_neg hek] at hk
        have hd : (decide (e.1 ≠ k)) = true := by simp [hek]
        rw [List.filter_cons, hd, if_pos rfl, ih hk]

theorem length_alInsert_of_none {K V : Type} [DecidableEq K]
    (m : List (K × V)) (k : K) (v : V) (hk : alookup m k = none) :
    (alInsert m k v).length = m.length + 1 := by
  rw [alInsert, List.length_cons, filter_ne_of_alookup_none m k hk]

/-- C4 (amended): only the transaction generator's insertion path enforces
the mempool capacity.  First conjunct: the generator's insertion keeps the
pool at or below `TX_MEMPOOL_CAPACITY` entries, evicting the randomly
chosen victim (an existing key) when the pool is full.  Second conjunct:
the network worker's `Transactions` handler inserts a new, signature-valid
transaction with no capacity check, growing the pool by one entry
regardless of its size. -/
theorem c4_mempool_capacity_paths (hashTx : Transaction → H256)
    (sigVerify : List Nat → H256 → List Nat → Bool)
    (hashSTx : SignedTransaction → H256) (pool : Mempool)
    (t : SignedTransaction) (victim : H256) :
    ((pool.length ≤ TX_MEMPOOL_CAPACITY →
      (TX_MEMPOOL_CAPACITY ≤ pool.length → victim ∈ pool.map Prod.fst) →
      (genInsert hashSTx pool t victim).length ≤ TX_MEMPOOL_CAPACITY)) ∧
    (sigVerify t.public_key (hashTx t.transaction) t.signature = true →
      alookup pool (hashSTx t) = none →
      (txRecvStep hashTx sigVerify hashSTx pool t).length =
        pool.length + 1) := by
  constructor
  · intro hle hvic
    rw [genInsert]
    by_cases hcap : TX_MEMPOOL_CAPACITY ≤ pool.length
    · rw [if_pos hcap]
      have h1 := length_alErase_of_mem pool victim (hvic hcap)
      have h2 := length_alInsert_le (alErase pool victim) (hashSTx t) t
      rw [TX_MEMPOOL_CAPACITY] at hle hcap ⊢
      omega
    · rw [if_neg hcap]
      have h2 := length_alInsert_le pool (hashSTx t) t
      rw [TX_MEMPOOL_CAPACITY] at hcap ⊢
      omega
  · intro hsig hnew
    rw [txRecvStep, if_pos hsig, hnew]
    simp only [Option.isSome_none, Bool.false_eq_true, if_false]
    exact length_alInsert_of_none pool (hashSTx t) t hnew

/-- C4, counterexample: eleven distinct signature-valid transactions
delivered through the network worker's `Transactions` handler, starting
from the empty mempool, leave the mempool with eleven entries — the
capacity bound of ten is violated on this (reachable) insertion path, which
performs no eviction. -/
theorem c4_worker_overflow_cex :
    (((List.range 11).map
        (fun i => (⟨⟨0, i, 0⟩, [], []⟩ : SignedTransaction))).foldl
      (txRecvStep (fun _ => 0) (fun _ _ _ => true)
        (fun t => t.transaction.value)) []).length
      = TX_MEMPOOL_CAPACITY + 1 := by
  decide

/-- C4, witness: the amended theorem applied at a full pool of ten entries
whose victim is a present key, and a fresh transaction. -/
theorem c4_mempool_capacity_paths_witness :
    (((List.range 10).map
          (fun i => ((i, (⟨⟨0, i, 0⟩, [], []⟩ : SignedTransaction)) :
            H256 × SignedTransaction))).length ≤ TX_MEMPOOL_CAPACITY) ∧
    (TX_MEMPOOL_CAPACITY ≤
        ((List.range 10).map
          (fun i => ((i, (⟨⟨0, i, 0⟩, [], []⟩ : SignedTransaction)) :
            H256 × SignedTransaction))).length →
      (3 : H256) ∈ ((List.range 10).map
          (fun i => ((i, (⟨⟨0, i, 0⟩, [], []⟩ : SignedTransaction)) :
            H256 × SignedTransaction))).map Prod.fst) ∧
    (genInsert (fun t => t.transaction.value + 100)
        ((List.range 10).map
          (fun i => ((i, (⟨⟨0, i, 0⟩, [], []⟩ : SignedTransaction)) :
            H256 × SignedTransaction)))
        ⟨⟨0, 7, 0⟩, [], []⟩ 3).length ≤ TX_MEMPOOL_CAPACITY :=
  ⟨by decide, fun _ => by decide,
    (c4_mempool_capacity_paths (fun _ => 0) (fun _ _ _ => true)
      (fun t => t.transaction.value + 100)
      ((List.range 10).map
        (fun i => ((i, (⟨⟨0, i, 0⟩, [], []⟩ : SignedTransaction)) :
          H256 × SignedTransaction)))
      ⟨⟨0, 7, 0⟩, [], []⟩ 3).1 (by decide) (fun _ => by decide)⟩

/-! ## Claims C5 and C6: insert contract and re-insertion -/

/-- C6: the full `Blockchain::insert` contract.  When the parent is not in
the block map the call returns `false` with the chain untouched; when it is
(and, as on every reachable chain, the parent also has a recorded height
`m`), the call returns `true`, stores the block and the supplied state
under the block's hash, and records height `m + 1`. -/
theorem c6_insert_contract (hashHeader : Header → H256) (c : Blockchain)
    (b : Block) (s : State) :
    (alookup c.blocks b.header.parent = none →
      c.insert hashHeader b s = (c, false)) ∧
    (∀ pb m, alookup c.blocks b.header.parent = some pb →
      alookup c.block_len b.header.parent = some m →
      (c.insert hashHeader b s).2 = true ∧
      alookup (c.insert hashHeader b s).1.blocks (blockHash hashHeader b)
        = some b ∧
      alookup (c.insert hashHeader b s).1.block_states
        (blockHash hashHeader b) = some s ∧
      alookup (c.insert hashHeader b s).1.block_len (blockHash hashHeader b)
        = some (m + 1)) := by
  constructor
  · intro hnone
    rw [Blockchain.insert, hnone]
  · intro pb m hpb hm
    rw [Blockchain.insert, hpb]
    refine ⟨rfl, ?_, ?_, ?_⟩
    · exact alookup_alInsert_self _ _ _
    · exact alookup_alInsert_self _ _ _
    · simp only [hm, Option.getD_some]
      exact alookup_alInsert_self _ _ _

/-- C6, witness: both branches of the contract at concrete inputs — a block
whose parent is absent from the genesis chain, and one whose parent is the
genesis block. -/
theorem c6_insert_contract_witness :
    (alookup (Blockchain.new (fun hdr => hdr.nonce) (fun i => i)).blocks
        (Block.header ⟨⟨9, 1, 5, 0, 0⟩, ⟨[]⟩⟩).parent = none ∧
      (Blockchain.new (fun hdr => hdr.nonce) (fun i => i)).insert
        (fun hdr => hdr.nonce) ⟨⟨9, 1, 5, 0, 0⟩, ⟨[]⟩⟩ ⟨[], []⟩ =
        (Blockchain.new (fun hdr => hdr.nonce) (fun i => i), false)) ∧
    (alookup (Blockchain.new (fun hdr => hdr.nonce) (fun i => i)).blocks
        (Block.header ⟨⟨0, 1, 5, 0, 0⟩, ⟨[]⟩⟩).parent = some genesisBlock ∧
      alookup (Blockchain.new (fun hdr => hdr.nonce) (fun i => i)).block_len
        (Block.header ⟨⟨0, 1, 5, 0, 0⟩, ⟨[]⟩⟩).parent = some 1 ∧
      (((Blockchain.new (fun hdr => hdr.nonce) (fun i => i)).insert
          (fun hdr => hdr.nonce) ⟨⟨0, 1, 5, 0, 0⟩, ⟨[]⟩⟩ ⟨[], []⟩).2 = true ∧
        alookup ((Blockchain.new (fun hdr => hdr.nonce)
            (fun i => i)).insert
            (fun hdr => hdr.nonce) ⟨⟨0, 1, 5, 0, 0⟩, ⟨[]⟩⟩ ⟨[], []⟩).1.blocks
          (blockHash (fun hdr => hdr.nonce) ⟨⟨0, 1, 5, 0, 0⟩, ⟨[]⟩⟩)
          = some ⟨⟨0, 1, 5, 0, 0⟩, ⟨[]⟩⟩ ∧
        alookup ((Blockchain.new (fun hdr => hdr.nonce)
            (fun i => i)).insert
            (fun hdr => hdr.nonce) ⟨⟨0, 1, 5, 0, 0⟩, ⟨[]⟩⟩
            ⟨[], []⟩).1.block_states
          (blockHash (fun hdr => hdr.nonce) ⟨⟨0, 1, 5, 0, 0⟩, ⟨[]⟩⟩)
          = some ⟨[], []⟩ ∧
        alookup ((Blockchain.new (fun hdr => hdr.nonce)
            (fun i => i)).insert
            (fun hdr => hdr.nonce) ⟨⟨0, 1, 5, 0, 0⟩, ⟨[]⟩⟩
            ⟨[], []⟩).1.block_len
          (blockHash (fun hdr => hdr.nonce) ⟨⟨0, 1, 5, 0, 0⟩, ⟨[]⟩⟩)
          = some (1 + 1))) :=
  ⟨⟨rfl, (c6_insert_contract (fun hdr => hdr.nonce)
      (Blockchain.new (fun hdr => hdr.nonce) (fun i => i))
      ⟨⟨9, 1, 5, 0, 0⟩, ⟨[]⟩⟩ ⟨[], []⟩).1 rfl⟩,
    ⟨rfl, rfl, (c6_insert_contract (fun hdr => hdr.nonce)
      (Blockchain.new (fun hdr => hdr.nonce) (fun i => i))
      ⟨⟨0, 1, 5, 0, 0⟩, ⟨[]⟩⟩ ⟨[], []⟩).2 genesisBlock 1 rfl rfl⟩⟩

/-- C5, counterexample: after admitting a block into the genesis chain,
inserting the very same block and state again returns `true` — the source
only checks the parent, never whether the block is already present — so the
claim that re-insertion returns `false` fails. -/
theorem c5_reinsert_returns_true_cex :
    alookup (((Blockchain.new (fun hdr => hdr.nonce) (fun i => i)).insert
          (fun hdr => hdr.nonce) ⟨⟨0, 1, 5, 0, 0⟩, ⟨[]⟩⟩
          ⟨[], []⟩).1.blocks)
        (blockHash (fun hdr => hdr.nonce) ⟨⟨0, 1, 5, 0, 0⟩, ⟨[]⟩⟩) =
      some ⟨⟨0, 1, 5, 0, 0⟩, ⟨[]⟩⟩ ∧
    ((((Blockchain.new (fun hdr => hdr.nonce) (fun i => i)).insert
          (fun hdr => hdr.nonce) ⟨⟨0, 1, 5, 0, 0⟩, ⟨[]⟩⟩ ⟨[], []⟩).1).insert
        (fun hdr => hdr.nonce) ⟨⟨0, 1, 5, 0, 0⟩, ⟨[]⟩⟩ ⟨[], []⟩).2 = true :=
  ⟨rfl, rfl⟩

/-- C5 (amended): re-inserting, with the same state, a block the chain
already stores (with its recorded height one more than its parent's, as on
every reachable chain, and the head at least that high) leaves all four
components of the chain extensionally unchanged, but returns `true`, not
`false`. -/
theorem c5_reinsert_noop_returns_true (hashHeader : Header → H256)
    (c : Blockchain) (b : Block) (s : State) (m : Nat)
    (hb : alookup c.blocks (blockHash hashHeader b) = some b)
    (hs : alookup c.block_states (blockHash hashHeader b) = some s)
    (hl : alookup c.block_len (blockHash hashHeader b) = some (m + 1))
    (hpar : (alookup c.blocks b.header.parent).isSome = true)
    (hplen : alookup c.block_len b.header.parent = some m)
    (hhead : m + 1 ≤ (alookup c.block_len c.head).getD 0) :
    (c.insert hashHeader b s).2 = true ∧
    (∀ h, alookup (c.insert hashHeader b s).1.blocks h = alookup c.blocks h) ∧
    (∀ h, alookup (c.insert hashHeader b s).1.block_len h =
      alookup c.block_len h) ∧
    (∀ h, alookup (c.insert hashHeader b s).1.block_states h =
      alookup c.block_states h) ∧
    (c.insert hashHeader b s).1.head = c.head := by
  obtain ⟨pb, hpb⟩ := Option.isSome_iff_exists.1 hpar
  rw [Blockchain.insert, hpb]
  simp only [hplen, Option.getD_some]
  refine ⟨trivial, ?_, ?_, ?_, ?_⟩
  · exact alookup_alInsert_of_eq c.blocks _ b hb
  · exact alookup_alInsert_of_eq c.block_len _ (m + 1) hl
  · exact alookup_alInsert_of_eq c.block_states _ s hs
  · have heq : alookup (alInsert c.block_len (blockHash hashHeader b) (m + 1))
        c.head = alookup c.block_len c.head :=
      alookup_alInsert_of_eq c.block_len _ (m + 1) hl c.head
    simp only [heq]
    rw [if_neg]
    omega

/-- C5, witness: the amended theorem applied to the chain consisting of the
genesis block and one admitted block, re-inserting that block. -/
theorem c5_reinsert_noop_returns_true_witness :
    alookup (((Blockchain.new (fun hdr => hdr.nonce) (fun i => i)).insert
          (fun hdr => hdr.nonce) ⟨⟨0, 1, 5, 0, 0⟩, ⟨[]⟩⟩
          ⟨[], []⟩).1).blocks
        (blockHash (fun hdr => hdr.nonce) ⟨⟨0, 1, 5, 0, 0⟩, ⟨[]⟩⟩)
      = some ⟨⟨0, 1, 5, 0, 0⟩, ⟨[]⟩⟩ ∧
    ((((Blockchain.new (fun hdr => hdr.nonce) (fun i => i)).insert
          (fun hdr => hdr.nonce) ⟨⟨0, 1, 5, 0, 0⟩, ⟨[]⟩⟩ ⟨[], []⟩).1).insert
        (fun hdr => hdr.nonce) ⟨⟨0, 1, 5, 0, 0⟩, ⟨[]⟩⟩ ⟨[], []⟩).2 = true ∧
    (((((Blockchain.new (fun hdr => hdr.nonce) (fun i => i)).insert
          (fun hdr => hdr.nonce) ⟨⟨0, 1, 5, 0, 0⟩, ⟨[]⟩⟩ ⟨[], []⟩).1).insert
        (fun hdr => hdr.nonce) ⟨⟨0, 1, 5, 0, 0⟩, ⟨[]⟩⟩ ⟨[], []⟩).1).head =
      (((Blockchain.new (fun hdr => hdr.nonce) (fun i => i)).insert
          (fun hdr => hdr.nonce) ⟨⟨0, 1, 5, 0, 0⟩, ⟨[]⟩⟩ ⟨[], []⟩).1).head := by
  have h := c5_reinsert_noop_returns_true (fun hdr => hdr.nonce)
    (((Blockchain.new (fun hdr => hdr.nonce) (fun i => i)).insert
        (fun hdr => hdr.nonce) ⟨⟨0, 1, 5, 0, 0⟩, ⟨[]⟩⟩ ⟨[], []⟩).1)
    ⟨⟨0, 1, 5, 0, 0⟩, ⟨[]⟩⟩ ⟨[], []⟩ 1 rfl rfl rfl rfl rfl (by decide)
  exact ⟨rfl, h.1, h.2.2.2.2⟩

/-! ## Claim C2: the head is the first-admitted block of maximal height

The reachable-state invariant below is preserved by `Blockchain::insert`
under three idealized-hash hypotheses about the abstract header hash (all
satisfied by the executable encoding `encHeader`, and true of SHA-256 for
every feasible input): injectivity, no header hashing to the zero hash
(the genesis parent), and no header containing its own hash as parent. -/

theorem alookup_alInsert_isSome {K V : Type} [DecidableEq K]
    (m : List (K × V)) (k : K) (v : V) (h : K) :
    (alookup (alInsert m k v) h).isSome = true ↔
      (h = k ∨ (alookup m h).isSome = true) := by
  by_cases hk : h = k
  · subst hk
    simp [alookup_alInsert_self]
  · rw [alookup_alInsert_ne _ _ _ _ hk]
    simp [hk]

/-- Invariant of every chain reachable from `Blockchain::new` by `insert`,
relative to its admission trace `tr` (genesis first, then each block whose
insertion returned true, in order). -/
structure ChainInv (hashHeader : Header → H256) (c : Blockchain)
    (tr : List H256) : Prop where
  keys : ∀ h, (alookup c.blocks h).isSome = true ↔
    (alookup c.block_len h).isSome = true
  head_mem : (alookup c.blocks c.head).isSome = true
  maxlen : ∀ h n, alookup c.block_len h = some n →
    n ≤ (alookup c.block_len c.head).getD 0
  trace : ∀ h, (alookup c.blocks h).isSome = true ↔ h ∈ tr
  tie : ∀ h n, alookup c.block_len h = some n →
    n = (alookup c.block_len c.head).getD 0 →
    List.indexOf c.head tr ≤ List.indexOf h tr
  hash_key : ∀ h b, alookup c.blocks h = some b → h = blockHash hashHeader b
  parent_len : ∀ h b, alookup c.blocks h = some b →
    h ≠ blockHash hashHeader genesisBlock →
    ∃ m, alookup c.block_len b.header.parent = some m ∧
      alookup c.block_len h = some (m + 1)
  genesis : alookup c.blocks (blockHash hashHeader genesisBlock)
      = some genesisBlock ∧
    alookup c.block_len (blockHash hashHeader genesisBlock) = some 1

/-- The invariant holds at `Blockchain::new`. -/
theorem chainInv_new (hashHeader : Header → H256)
    (addrOfKeyByte : Nat → H160) :
    ChainInv hashHeader (Blockchain.new hashHeader addrOfKeyByte)
      [blockHash hashHeader genesisBlock] := by
  constructor
  · intro h
    by_cases hg : blockHash hashHeader genesisBlock = h
    · simp [Blockchain.new, alookup, hg]
    · have hg2 : ¬ h = blockHash hashHeader genesisBlock := fun hh =>
        hg hh.symm
      simp [Blockchain.new, alookup, hg, hg2]
  · simp [Blockchain.new, alookup]
  · intro h n hn
    by_cases hg : blockHash hashHeader genesisBlock = h
    · simp only [Blockchain.new, alookup, hg, if_pos] at hn ⊢
      simp only [Option.some.injEq] at hn
      simp [← hn]
    · simp [Blockchain.new, alookup, hg] at hn
  · intro h
    by_cases hg : blockHash hashHeader genesisBlock = h
    · simp [Blockchain.new, alookup, hg]
    · have hg2 : ¬ h = blockHash hashHeader genesisBlock := fun hh =>
        hg hh.symm
      simp [Blockchain.new, alookup, hg, hg2]
  · intro h n hn _
    by_cases hg : blockHash hashHeader genesisBlock = h
    · subst hg; exact le_refl _
    · simp [Blockchain.new, alookup, hg] at hn
  · intro h b hb
    by_cases hg : blockHash hashHeader genesisBlock = h
    · simp only [Blockchain.new, alookup, hg, if_pos] at hb
      simp only [Option.some.injEq] at hb
      rw [← hg, ← hb]
    · simp [Blockchain.new, alookup, hg] at hb
  · intro h b hb hne
    by_cases hg : blockHash hashHeader genesisBlock = h
    · exact absurd hg.symm hne
    · simp [Blockchain.new, alookup, hg] at hb
  · constructor <;> simp [Blockchain.new, alookup]


/-- `Blockchain::insert` preserves the invariant, extending the trace by
the block's hash exactly when the insertion was admitted. -/
theorem chainInv_insert (hashHeader : Header → H256)
    (Hinj : Function.Injective hashHeader)
    (H0 : ∀ hdr, hashHeader hdr ≠ 0)
    (Hfix : ∀ hdr, hashHeader hdr ≠ hdr.parent)
    (c : Blockchain) (tr : List H256) (b : Block) (s : State)
    (hI : ChainInv hashHeader c tr) :
    ChainInv hashHeader (c.insert hashHeader b s).1
      (if (c.insert hashHeader b s).2 then tr ++ [blockHash hashHeader b]
       else tr) := by
  rcases hpb : alookup c.blocks b.header.parent with _ | pb
  · rw [Blockchain.insert, hpb]
    exact hI
  · -- the parent is present: the insertion is admitted
    obtain ⟨pl, hpl⟩ := Option.isSome_iff_exists.1
      ((hI.keys _).1 (by rw [hpb]; rfl))
    obtain ⟨hl0, hhl0⟩ := Option.isSome_iff_exists.1
      ((hI.keys c.head).1 hI.head_mem)
    set curr := blockHash hashHeader b with hcurr
    have hzero : ∀ v, alookup c.blocks (0 : H256) ≠ some v := fun v hv =>
      H0 v.header (hI.hash_key 0 v hv).symm
    have hcurr_ne_gen : curr ≠ blockHash hashHeader genesisBlock := by
      intro heq
      have hbg : b.header = genesisBlock.header := Hinj heq
      have hp0 : b.header.parent = (0 : H256) := by rw [hbg]; rfl
      rw [hp0] at hpb
      exact hzero pb hpb
    have hprev_ne_curr : b.header.parent ≠ curr := fun h =>
      Hfix b.header h.symm
    have hres : c.insert hashHeader b s =
        ({ blocks := alInsert c.blocks curr b,
           block_len := alInsert c.block_len curr (pl + 1),
           block_states := alInsert c.block_states curr s,
           head := if (alookup (alInsert c.block_len curr (pl + 1))
                 c.head).getD 0 < pl + 1
               then curr else c.head }, true) := by
      rw [Blockchain.insert, hpb]
      simp only [hpl, Option.getD_some]
    have hadm : (c.insert hashHeader b s).2 = true := by rw [hres]
    rw [if_pos hadm, hres]
    dsimp only
    by_cases hcase : alookup c.blocks curr = none
    · -- fresh block
      have hlen_none : alookup c.block_len curr = none := by
        rcases hln : alookup c.block_len curr with _ | v
        · rfl
        · have hs2 := (hI.keys curr).2 (by rw [hln]; rfl)
          rw [hcase] at hs2
          exact absurd hs2 (by simp)
      have hcurr_ne_head : c.head ≠ curr := by
        intro h
        have hs2 := hI.head_mem
        rw [h, hcase] at hs2
        exact absurd hs2 (by simp)
      have hhead_pres :
          alookup (alInsert c.block_len curr (pl + 1)) c.head =
            alookup c.block_len c.head :=
        alookup_alInsert_ne _ _ _ _ hcurr_ne_head
      have hcurr_not_tr : curr ∉ tr := by
        intro h
        have hs2 := (hI.trace curr).2 h
        rw [hcase] at hs2
        exact absurd hs2 (by simp)
      have hhead_tr : c.head ∈ tr := (hI.trace c.head).1 hI.head_mem
      by_cases hmv : (alookup (alInsert c.block_len curr (pl + 1))
          c.head).getD 0 < pl + 1
      · -- the head moves to the fresh block
        rw [if_pos hmv]
        rw [hhead_pres, hhl0] at hmv
        simp only [Option.getD_some] at hmv
        refine ⟨?_, ?_, ?_, ?_, ?_, ?_, ?_, ?_⟩ <;> dsimp only
        · -- field: keys
          intro h
          rw [alookup_alInsert_isSome, alookup_alInsert_isSome]
          exact or_congr_right (hI.keys h)
        · -- field: head_mem
          simp [alookup_alInsert_self]
        · -- field: maxlen
          intro h n hn
          rw [alookup_alInsert_self]
          simp only [Option.getD_some]
          by_cases hk : h = curr
          · subst hk
            rw [alookup_alInsert_self] at hn
            simp only [Option.some.injEq] at hn
            omega
          · rw [alookup_alInsert_ne _ _ _ _ hk] at hn
            have hle := hI.maxlen h n hn
            rw [hhl0] at hle
            simp only [Option.getD_some] at hle
            omega
        · -- field: trace
          intro h
          rw [alookup_alInsert_isSome]
          by_cases hk : h = curr
          · subst hk
            simp
          · simp only [hk, false_or]
            rw [hI.trace h]
            simp [hk]
        · -- field: tie
          intro h n hn hmax
          by_cases hk : h = curr
          · subst hk
            exact le_refl _
          · rw [alookup_alInsert_ne _ _ _ _ hk] at hn
            rw [alookup_alInsert_self] at hmax
            simp only [Option.getD_some] at hmax
            have hle := hI.maxlen h n hn
            rw [hhl0] at hle
            simp only [Option.getD_some] at hle
            omega
        · -- field: hash_key
          intro h bb hb
          by_cases hk : h = curr
          · subst hk
            rw [alookup_alInsert_self] at hb
            simp only [Option.some.injEq] at hb
            rw [← hb]
          · rw [alookup_alInsert_ne _ _ _ _ hk] at hb
            exact hI.hash_key h bb hb
        · -- field: parent_len
          intro h bb hb hne
          by_cases hk : h = curr
          · subst hk
            rw [alookup_alInsert_self] at hb
            simp only [Option.some.injEq] at hb
            subst hb
            refine ⟨pl, ?_, ?_⟩
            · rw [alookup_alInsert_ne _ _ _ _ hprev_ne_curr]
              exact hpl
            · exact alookup_alInsert_self _ _ _
          · rw [alookup_alInsert_ne _ _ _ _ hk] at hb
            obtain ⟨m, hm1, hm2⟩ := hI.parent_len h bb hb hne
            have hbp_ne : bb.header.parent ≠ curr := by
              intro h2
              rw [h2, hlen_none] at hm1
              exact absurd hm1 (by simp)
            refine ⟨m, ?_, ?_⟩
            · rw [alookup_alInsert_ne _ _ _ _ hbp_ne]
              exact hm1
            · rw [alookup_alInsert_ne _ _ _ _ hk]
              exact hm2
        · -- field: genesis
          refine ⟨?_, ?_⟩
          · rw [alookup_alInsert_ne _ _ _ _ (fun h => hcurr_ne_gen h.symm)]
            exact hI.genesis.1
          · rw [alookup_alInsert_ne _ _ _ _ (fun h => hcurr_ne_gen h.symm)]
            exact hI.genesis.2
      · -- the head stays
        rw [if_neg hmv]
        rw [hhead_pres, hhl0] at hmv
        simp only [Option.getD_some] at hmv
        refine ⟨?_, ?_, ?_, ?_, ?_, ?_, ?_, ?_⟩ <;> dsimp only
        · -- field: keys
          intro h
          rw [alookup_alInsert_isSome, alookup_alInsert_isSome]
          exact or_congr_right (hI.keys h)
        · -- field: head_mem
          rw [alookup_alInsert_ne _ _ _ _ hcurr_ne_head]
          exact hI.head_mem
        · -- field: maxlen
          intro h n hn
          rw [hhead_pres, hhl0]
          simp only [Option.getD_some]
          by_cases hk : h = curr
          · subst hk
            rw [alookup_alInsert_self] at hn
            simp only [Option.some.injEq] at hn
            omega
          · rw [alookup_alInsert_ne _ _ _ _ hk] at hn
            have hle := hI.maxlen h n hn
            rw [hhl0] at hle
            simpa using hle
        · -- field: trace
          intro h
          rw [alookup_alInsert_isSome]
          by_cases hk : h = curr
          · subst hk
            simp
          · simp only [hk, false_or]
            rw [hI.trace h]
            simp [hk]
        · -- field: tie
          intro h n hn hmax
          rw [hhead_pres, hhl0] at hmax
          simp only [Option.getD_some] at hmax
          rw [List.indexOf_append_of_mem hhead_tr]
          by_cases hk : h = curr
          · subst hk
            rw [List.indexOf_append_of_not_mem hcurr_not_tr]
            have hlt := List.indexOf_lt_length.2 hhead_tr
            omega
          · rw [alookup_alInsert_ne _ _ _ _ hk] at hn
            have hh_tr : h ∈ tr := by
              rw [← hI.trace h, hI.keys h, hn]
              rfl
            rw [List.indexOf_append_of_mem hh_tr]
            refine hI.tie h n hn ?_
            rw [hhl0]
            simpa using hmax
        · -- field: hash_key
          intro h bb hb
          by_cases hk : h = curr
          · subst hk
            rw [alookup_alInsert_self] at hb
            simp only [Option.some.injEq] at hb
            rw [← hb]
          · rw [alookup_alInsert_ne _ _ _ _ hk] at hb
            exact hI.hash_key h bb hb
        · -- field: parent_len
          intro h bb hb hne
          by_cases hk : h = curr
          · subst hk
            rw [alookup_alInsert_self] at hb
            simp only [Option.some.injEq] at hb
            subst hb
            refine ⟨pl, ?_, ?_⟩
            · rw [alookup_alInsert_ne _ _ _ _ hprev_ne_curr]
              exact hpl
            · exact alookup_alInsert_self _ _ _
          · rw [alookup_alInsert_ne _ _ _ _ hk] at hb
            obtain ⟨m, hm1, hm2⟩ := hI.parent_len h bb hb hne
            have hbp_ne : bb.header.parent ≠ curr := by
              intro h2
              rw [h2, hlen_none] at hm1
              exact absurd hm1 (by simp)
            refine ⟨m, ?_, ?_⟩
            · rw [alookup_alInsert_ne _ _ _ _ hbp_ne]
              exact hm1
            · rw [alookup_alInsert_ne _ _ _ _ hk]
              exact hm2
        · -- field: genesis
          refine ⟨?_, ?_⟩
          · rw [alookup_alInsert_ne _ _ _ _ (fun h => hcurr_ne_gen h.symm)]
            exact hI.genesis.1
          · rw [alookup_alInsert_ne _ _ _ _ (fun h => hcurr_ne_gen h.symm)]
            exact hI.genesis.2
    · -- re-insertion of an already stored block
      obtain ⟨b0, hb0⟩ := Option.ne_none_iff_exists'.1 hcase
      have hkey : curr = blockHash hashHeader b0 := hI.hash_key curr b0 hb0
      have hhdr : b.header = b0.header := Hinj hkey
      obtain ⟨m, hm1, hm2⟩ := hI.parent_len curr b0 hb0 hcurr_ne_gen
      have hm1' : alookup c.block_len b.header.parent = some m := by
        rw [hhdr]
        exact hm1
      have hpl_m : pl = m := by
        rw [hm1'] at hpl
        simpa using hpl.symm
      subst hpl_m
      have hlen_pres : ∀ h,
          alookup (alInsert c.block_len curr (pl + 1)) h =
            alookup c.block_len h :=
        alookup_alInsert_of_eq c.block_len curr (pl + 1) hm2
      have hmv : ¬ (alookup (alInsert c.block_len curr (pl + 1))
          c.head).getD 0 < pl + 1 := by
        rw [hlen_pres, hhl0]
        simp only [Option.getD_some]
        have hle := hI.maxlen curr (pl + 1) hm2
        rw [hhl0] at hle
        simpa using hle
      rw [if_neg hmv]
      have hcurr_tr : curr ∈ tr := by
        rw [← hI.trace curr, hb0]
        rfl
      have hhead_tr : c.head ∈ tr := (hI.trace c.head).1 hI.head_mem
      refine ⟨?_, ?_, ?_, ?_, ?_, ?_, ?_, ?_⟩ <;> dsimp only
      · -- field: keys
        intro h
        rw [alookup_alInsert_isSome, alookup_alInsert_isSome]
        exact or_congr_right (hI.keys h)
      · -- field: head_mem
        rw [alookup_alInsert_isSome]
        right
        exact hI.head_mem
      · -- field: maxlen
        intro h n hn
        rw [hlen_pres] at hn
        rw [hlen_pres]
        exact hI.maxlen h n hn
      · -- field: trace
        intro h
        rw [alookup_alInsert_isSome]
        by_cases hk : h = curr
        · subst hk
          simp [hcurr_tr]
        · simp only [hk, false_or]
          rw [hI.trace h]
          simp [hk]
      · -- field: tie
        intro h n hn hmax
        rw [hlen_pres] at hn hmax
        have hh_tr : h ∈ tr := by
          rw [← hI.trace h, hI.keys h, hn]
          rfl
        rw [List.indexOf_append_of_mem hhead_tr,
          List.indexOf_append_of_mem hh_tr]
        exact hI.tie h n hn hmax
      · -- field: hash_key
        intro h bb hb
        by_cases hk : h = curr
        · subst hk
          rw [alookup_alInsert_self] at hb
          simp only [Option.some.injEq] at hb
          rw [← hb]
        · rw [alookup_alInsert_ne _ _ _ _ hk] at hb
          exact hI.hash_key h bb hb
      · -- field: parent_len
        intro h bb hb hne
        by_cases hk : h = curr
        · subst hk
          rw [alookup_alInsert_self] at hb
          simp only [Option.some.injEq] at hb
          subst hb
          refine ⟨pl, ?_, ?_⟩
          · rw [hlen_pres]
            exact hm1'
          · rw [hlen_pres]
            exact hm2
        · rw [alookup_alInsert_ne _ _ _ _ hk] at hb
          obtain ⟨m2, hm21, hm22⟩ := hI.parent_len h bb hb hne
          refine ⟨m2, ?_, ?_⟩
          · rw [hlen_pres]
            exact hm21
          · rw [hlen_pres]
            exact hm22
      · -- field: genesis
        refine ⟨?_, ?_⟩
        · rw [alookup_alInsert_ne _ _ _ _ (fun h => hcurr_ne_gen h.symm)]
          exact hI.genesis.1
        · rw [hlen_pres]
          exact hI.genesis.2

/-- The invariant holds after any sequence of insert operations. -/
theorem chainInv_runInserts (hashHeader : Header → H256)
    (Hinj : Function.Injective hashHeader)
    (H0 : ∀ hdr, hashHeader hdr ≠ 0)
    (Hfix : ∀ hdr, hashHeader hdr ≠ hdr.parent) :
    ∀ (ops : List (Block × State)) (c : Blockchain) (tr : List H256),
      ChainInv hashHeader c tr →
      ChainInv hashHeader (runInserts hashHeader c tr ops).1
        (runInserts hashHeader c tr ops).2 := by
  intro ops
  induction ops with
  | nil => intro c tr hI; exact hI
  | cons op rest ih =>
      intro c tr hI
      obtain ⟨b, s⟩ := op
      rw [runInserts]
      exact ih _ _ (chainInv_insert hashHeader Hinj H0 Hfix c tr b s hI)

/-- C2: starting from `Blockchain::new` and running any sequence of
`insert` operations (with the admission trace recorded), the head is an
admitted block whose recorded height is maximal, and among admitted blocks
of that maximal height the head is the one admitted first (smallest index
of first admission in the trace).  The abstract header hash is assumed
injective, never zero, and never equal to the hashed header's own parent
field — all idealized-hash properties of SHA-256, satisfied by the
executable `encHeader`. -/
theorem c2_head_argmax_first_admitted (hashHeader : Header → H256)
    (addrOfKeyByte : Nat → H160)
    (Hinj : Function.Injective hashHeader)
    (H0 : ∀ hdr, hashHeader hdr ≠ 0)
    (Hfix : ∀ hdr, hashHeader hdr ≠ hdr.parent)
    (ops : List (Block × State)) (c : Blockchain) (tr : List H256)
    (hrun : runInserts hashHeader (Blockchain.new hashHeader addrOfKeyByte)
      [blockHash hashHeader genesisBlock] ops = (c, tr)) :
    (alookup c.blocks c.head).isSome = true ∧
    (∀ h n, alookup c.block_len h = some n →
      n ≤ (alookup c.block_len c.head).getD 0) ∧
    (∀ h n, alookup c.block_len h = some n →
      n = (alookup c.block_len c.head).getD 0 →
      List.indexOf c.head tr ≤ List.indexOf h tr) := by
  have hI := chainInv_runInserts hashHeader Hinj H0 Hfix ops
    (Blockchain.new hashHeader addrOfKeyByte)
    [blockHash hashHeader genesisBlock]
    (chainInv_new hashHeader addrOfKeyByte)
  rw [hrun] at hI
  exact ⟨hI.head_mem, hI.maxlen, hI.tie⟩

theorem encHeader_injective : Function.Injective encHeader := by
  intro a b h
  obtain ⟨pa, na, da, ta, ma⟩ := a
  obtain ⟨pb, nb, db, tb, mb⟩ := b
  simp only [encHeader] at h
  have h1 : Nat.pair pa (Nat.pair na (Nat.pair da (Nat.pair ta ma))) =
      Nat.pair pb (Nat.pair nb (Nat.pair db (Nat.pair tb mb))) := by omega
  rw [Nat.pair_eq_pair] at h1
  obtain ⟨hp, h2⟩ := h1
  rw [Nat.pair_eq_pair] at h2
  obtain ⟨hn, h3⟩ := h2
  rw [Nat.pair_eq_pair] at h3
  obtain ⟨hd, h4⟩ := h3
  rw [Nat.pair_eq_pair] at h4
  obtain ⟨ht, hm⟩ := h4
  subst hp; subst hn; subst hd; subst ht; subst hm
  rfl

theorem encHeader_ne_zero (hdr : Header) : encHeader hdr ≠ 0 := by
  simp [encHeader]

theorem encHeader_ne_parent (hdr : Header) : encHeader hdr ≠ hdr.parent := by
  have h := Nat.left_le_pair hdr.parent
    (Nat.pair hdr.nonce
      (Nat.pair hdr.difficulty (Nat.pair hdr.timestamp hdr.merkle_root)))
  simp only [encHeader]
  omega

/-- C2, witness: the theorem applied with the executable injective header
hash, the identity genesis-address map, and the empty operation sequence.
-/
theorem c2_head_argmax_first_admitted_witness :
    runInserts encHeader (Blockchain.new encHeader (fun i => i))
      [blockHash encHeader genesisBlock] [] =
      (Blockchain.new encHeader (fun i => i),
        [blockHash encHeader genesisBlock]) ∧
    ((alookup (Blockchain.new encHeader (fun i => i)).blocks
        (Blockchain.new encHeader (fun i => i)).head).isSome = true ∧
    (∀ h n, alookup (Blockchain.new encHeader (fun i => i)).block_len h
        = some n →
      n ≤ (alookup (Blockchain.new encHeader (fun i => i)).block_len
        (Blockchain.new encHeader (fun i => i)).head).getD 0) ∧
    (∀ h n, alookup (Blockchain.new encHeader (fun i => i)).block_len h
        = some n →
      n = (alookup (Blockchain.new encHeader (fun i => i)).block_len
        (Blockchain.new encHeader (fun i => i)).head).getD 0 →
      List.indexOf (Blockchain.new encHeader (fun i => i)).head
          [blockHash encHeader genesisBlock] ≤
        List.indexOf h [blockHash encHeader genesisBlock])) :=
  ⟨rfl, c2_head_argmax_first_admitted encHeader (fun i => i)
    encHeader_injective encHeader_ne_zero encHeader_ne_parent []
    (Blockchain.new encHeader (fun i => i))
    [blockHash encHeader genesisBlock] rfl⟩

/-! ## Claim C1: PoW inequality on every admission path -/

section WorkerProofs

variable (hashHeader : Header → H256) (hashTx : Transaction → H256)
variable (sigVerify : List Nat → H256 → List Nat → Bool)
variable (addrOfPk : List Nat → H160) (hashSTx : SignedTransaction → H256)

/-- A successful insert stores the block under its hash. -/
theorem insert_stores (c : Blockchain) (b : Block) (s : State) (pb : Block)
    (hpb : alookup c.blocks b.header.parent = some pb) :
    alookup (c.insert hashHeader b s).1.blocks (blockHash hashHeader b)
      = some b := by
  rw [Blockchain.insert, hpb]
  dsimp only
  exact alookup_alInsert_self _ _ _

/-- `insert` never touches the binding of any other key. -/
theorem insert_preserves_other (c : Blockchain) (b : Block) (s : State)
    (h : H256) (hne : h ≠ blockHash hashHeader b) :
    alookup (c.insert hashHeader b s).1.blocks h = alookup c.blocks h := by
  rcases hpb : alookup c.blocks b.header.parent with _ | pb
  · rw [Blockchain.insert, hpb]
  · rw [Blockchain.insert, hpb]
    dsimp only
    exact alookup_alInsert_ne _ _ _ _ hne

/-- One pass of the commit fixpoint, on an orphan list with correct keys
(each key is its block's hash), no duplicate keys, all keys absent from the
chain: existing bindings persist, every new binding is keyed by its block's
hash and satisfies the pass's admission inequality against its parent's
stored difficulty, new keys come from the committed list, and committed
keys come from the scanned list. -/
theorem commitScan_spec :
    ∀ (l : List (H256 × Block)) (chain : Blockchain) (pool : Mempool),
      (∀ e ∈ l, e.1 = blockHash hashHeader e.2) →
      (l.map Prod.fst).Nodup →
      (∀ e ∈ l, alookup chain.blocks e.1 = none) →
      (∀ h b', alookup chain.blocks h = some b' →
        alookup (commitScan hashHeader hashTx sigVerify addrOfPk hashSTx
          chain pool l).chain.blocks h = some b') ∧
      (∀ h b', alookup (commitScan hashHeader hashTx sigVerify addrOfPk
          hashSTx chain pool l).chain.blocks h = some b' →
        alookup chain.blocks h = some b' ∨
        (h = blockHash hashHeader b' ∧
          ∃ pb, alookup (commitScan hashHeader hashTx sigVerify addrOfPk
              hashSTx chain pool l).chain.blocks b'.header.parent = some pb ∧
            h ≤ pb.header.difficulty)) ∧
      (∀ h, (alookup (commitScan hashHeader hashTx sigVerify addrOfPk
          hashSTx chain pool l).chain.blocks h).isSome = true →
        (alookup chain.blocks h).isSome = true ∨
        h ∈ (commitScan hashHeader hashTx sigVerify addrOfPk hashSTx
          chain pool l).committed) := by
  intro l
  induction l with
  | nil =>
      intro chain pool _ _ _
      refine ⟨fun h b' hb => ?_, fun h b' hb => ?_, fun h hb => ?_⟩
      · simpa [commitScan] using hb
      · rw [commitScan] at hb
        exact Or.inl hb
      · rw [commitScan] at hb
        exact Or.inl hb
  | cons e rest ih =>
      intro chain pool Hk Hnd Hdj
      obtain ⟨bh, b⟩ := e
      have hbh : bh = blockHash hashHeader b := Hk (bh, b) (by simp)
      have hfresh : alookup chain.blocks bh = none := Hdj (bh, b) (by simp)
      have Hk' : ∀ e ∈ rest, e.1 = blockHash hashHeader e.2 := fun e he =>
        Hk e (List.mem_cons_of_mem _ he)
      have Hnd' : (rest.map Prod.fst).Nodup := by
        rw [List.map_cons] at Hnd
        exact Hnd.of_cons
      have hbh_not_rest : bh ∉ rest.map Prod.fst := by
        rw [List.map_cons] at Hnd
        exact (List.nodup_cons.1 Hnd).1
      rcases hpar : alookup chain.blocks b.header.parent with _ | pb
      · -- parent unknown: skip
        have Hdj' : ∀ e ∈ rest, alookup chain.blocks e.1 = none := fun e he =>
          Hdj e (List.mem_cons_of_mem _ he)
        have hspec := ih chain pool Hk' Hnd' Hdj'
        refine ⟨?_, ?_, ?_⟩
        · intro h b' hb
          simp only [commitScan, hpar]
          exact hspec.1 h b' hb
        · intro h b' hb
          simp only [commitScan, hpar] at hb ⊢
          exact hspec.2.1 h b' hb
        · intro h hb
          simp only [commitScan, hpar] at hb ⊢
          exact hspec.2.2 h hb
      · by_cases hle : bh ≤ pb.header.difficulty
        · rcases hvb : verify_block hashTx sigVerify addrOfPk b
              (getStateD chain b.header.parent) with _ | ns
          · -- validator failed: skip
            have Hdj' : ∀ e ∈ rest, alookup chain.blocks e.1 = none :=
              fun e he => Hdj e (List.mem_cons_of_mem _ he)
            have hspec := ih chain pool Hk' Hnd' Hdj'
            refine ⟨?_, ?_, ?_⟩
            · intro h b' hb
              simp only [commitScan, hpar, hle, if_true, hvb]
              exact hspec.1 h b' hb
            · intro h b' hb
              simp only [commitScan, hpar, hle, if_true, hvb] at hb ⊢
              exact hspec.2.1 h b' hb
            · intro h hb
              simp only [commitScan, hpar, hle, if_true, hvb] at hb ⊢
              exact hspec.2.2 h hb
          · -- commit
            have hparent_ne : b.header.parent ≠ bh := by
              intro hcontra
              rw [hcontra, hfresh] at hpar
              exact absurd hpar (by simp)
            have hins_stores := insert_stores hashHeader chain b ns pb hpar
            have hins_pres := fun h hne =>
              insert_preserves_other hashHeader chain b ns h hne
            have Hdj' : ∀ e ∈ rest,
                alookup (chain.insert hashHeader b ns).1.blocks e.1
                  = none := by
              intro e he
              have hne : e.1 ≠ blockHash hashHeader b := by
                rw [← hbh]
                intro hcontra
                exact hbh_not_rest (hcontra ▸ List.mem_map_of_mem _ he)
              rw [hins_pres e.1 hne]
              exact Hdj e (List.mem_cons_of_mem _ he)
            have hspec := ih (chain.insert hashHeader b ns).1
              (if b.header.parent = (chain.insert hashHeader b ns).1.tip then
                drainTxs hashSTx pool b.content.transactions
               else pool) Hk' Hnd' Hdj'
            refine ⟨?_, ?_, ?_⟩
            · intro h b' hb
              simp only [commitScan, hpar, hle, if_true, hvb]
              have hne : h ≠ blockHash hashHeader b := by
                intro hcontra
                rw [hcontra, ← hbh, hfresh] at hb
                exact absurd hb (by simp)
              exact hspec.1 h b' (by rw [hins_pres h hne]; exact hb)
            · intro h b' hb
              simp only [commitScan, hpar, hle, if_true, hvb] at hb ⊢
              rcases hspec.2.1 h b' hb with hmid | hgood
              · by_cases hk : h = blockHash hashHeader b
                · subst hk
                  rw [hins_stores] at hmid
                  simp only [Option.some.injEq] at hmid
                  subst hmid
                  have hne2 : b.header.parent ≠ blockHash hashHeader b := by
                    rw [hbh] at hparent_ne
                    exact hparent_ne
                  refine Or.inr ⟨rfl, pb, ?_, ?_⟩
                  · refine hspec.1 _ pb ?_
                    rw [hins_pres _ hne2]
                    exact hpar
                  · rw [← hbh]
                    exact hle
                · rw [hins_pres h hk] at hmid
                  exact Or.inl hmid
              · exact Or.inr hgood
            · intro h hb
              simp only [commitScan, hpar, hle, if_true, hvb] at hb ⊢
              rcases hspec.2.2 h hb with hmid | hcomm
              · by_cases hk : h = bh
                · subst hk
                  simp
                · rw [hbh] at hk
                  rw [hins_pres h hk] at hmid
                  exact Or.inl hmid
              · exact Or.inr (List.mem_cons_of_mem _ hcomm)
        · -- difficulty check failed: skip
          have Hdj' : ∀ e ∈ rest, alookup chain.blocks e.1 = none :=
            fun e he => Hdj e (List.mem_cons_of_mem _ he)
          have hspec := ih chain pool Hk' Hnd' Hdj'
          refine ⟨?_, ?_, ?_⟩
          · intro h b' hb
            simp only [commitScan, hpar, hle, if_false]
            exact hspec.1 h b' hb
          · intro h b' hb
            simp only [commitScan, hpar, hle, if_false] at hb ⊢
            exact hspec.2.1 h b' hb
          · intro h hb
            simp only [commitScan, hpar, hle, if_false] at hb ⊢
            exact hspec.2.2 h hb

end WorkerProofs

section WorkerProofs2

variable (hashHeader : Header → H256) (hashTx : Transaction → H256)
variable (sigVerify : List Nat → H256 → List Nat → Bool)
variable (addrOfPk : List Nat → H160) (hashSTx : SignedTransaction → H256)

/-- Unfolding of the commit fixpoint when the pass commits nothing. -/
theorem commitLoop_eq_of_no_commits (chain : Blockchain) (pool : Mempool)
    (orphans : List (H256 × Block))
    (h : (commitScan hashHeader hashTx sigVerify addrOfPk hashSTx
      chain pool orphans).no_commits = true) :
    commitLoop hashHeader hashTx sigVerify addrOfPk hashSTx
        chain pool orphans =
      ((commitScan hashHeader hashTx sigVerify addrOfPk hashSTx
          chain pool orphans).chain,
       (commitScan hashHeader hashTx sigVerify addrOfPk hashSTx
          chain pool orphans).pool,
       orphans.filter (fun e => !((commitScan hashHeader hashTx sigVerify
          addrOfPk hashSTx chain pool orphans).committed.contains e.1))) := by
  rw [commitLoop]
  rw [dif_pos h]

/-- Unfolding of the commit fixpoint when the pass committed something. -/
theorem commitLoop_eq_of_commits (chain : Blockchain) (pool : Mempool)
    (orphans : List (H256 × Block))
    (h : (commitScan hashHeader hashTx sigVerify addrOfPk hashSTx
      chain pool orphans).no_commits = false) :
    commitLoop hashHeader hashTx sigVerify addrOfPk hashSTx
        chain pool orphans =
      commitLoop hashHeader hashTx sigVerify addrOfPk hashSTx
        (commitScan hashHeader hashTx sigVerify addrOfPk hashSTx
          chain pool orphans).chain
        (commitScan hashHeader hashTx sigVerify addrOfPk hashSTx
          chain pool orphans).pool
        (orphans.filter (fun e => !((commitScan hashHeader hashTx sigVerify
          addrOfPk hashSTx chain pool orphans).committed.contains e.1))) := by
  rw [commitLoop]
  rw [dif_neg (by rw [h]; exact Bool.false_ne_true)]

/-- The full commit fixpoint preserves existing chain bindings, and every
binding it adds is keyed by its block's hash and bounded by the stored
difficulty of its parent, which ends up in the final chain. -/
theorem commitLoop_spec :
    ∀ (N : Nat) (orphans : List (H256 × Block)) (chain : Blockchain)
      (pool : Mempool),
      orphans.length ≤ N →
      (∀ e ∈ orphans, e.1 = blockHash hashHeader e.2) →
      (orphans.map Prod.fst).Nodup →
      (∀ e ∈ orphans, alookup chain.blocks e.1 = none) →
      (∀ h b', alookup chain.blocks h = some b' →
        alookup (commitLoop hashHeader hashTx sigVerify addrOfPk hashSTx
          chain pool orphans).1.blocks h = some b') ∧
      (∀ h b', alookup (commitLoop hashHeader hashTx sigVerify addrOfPk
          hashSTx chain pool orphans).1.blocks h = some b' →
        alookup chain.blocks h = some b' ∨
        (h = blockHash hashHeader b' ∧ ∃ pb,
          alookup (commitLoop hashHeader hashTx sigVerify addrOfPk hashSTx
            chain pool orphans).1.blocks b'.header.parent = some pb ∧
          h ≤ pb.header.difficulty)) := by
  intro N
  induction N with
  | zero =>
      intro orphans chain pool hlen Hk Hnd Hdj
      have hnil : orphans = [] := List.length_eq_zero.1 (Nat.le_zero.1 hlen)
      subst hnil
      rw [commitLoop_eq_of_no_commits hashHeader hashTx sigVerify addrOfPk
        hashSTx chain pool [] rfl]
      exact ⟨fun h b' hb => hb, fun h b' hb => Or.inl hb⟩
  | succ n ihN =>
      intro orphans chain pool hlen Hk Hnd Hdj
      have hspec := commitScan_spec hashHeader hashTx sigVerify addrOfPk
        hashSTx orphans chain pool Hk Hnd Hdj
      by_cases hnc : (commitScan hashHeader hashTx sigVerify addrOfPk
          hashSTx chain pool orphans).no_commits = true
      · rw [commitLoop_eq_of_no_commits hashHeader hashTx sigVerify addrOfPk
          hashSTx chain pool orphans hnc]
        exact ⟨hspec.1, hspec.2.1⟩
      · have hnc2 : (commitScan hashHeader hashTx sigVerify addrOfPk hashSTx
            chain pool orphans).no_commits = false :=
          Bool.eq_false_iff.2 hnc
        rw [commitLoop_eq_of_commits hashHeader hashTx sigVerify addrOfPk
          hashSTx chain pool orphans hnc2]
        have hsub : List.Sublist (orphans.filter (fun e =>
            !((commitScan hashHeader hashTx sigVerify addrOfPk hashSTx chain
              pool orphans).committed.contains e.1))) orphans :=
          List.filter_sublist _
        have Hk2 : ∀ e ∈ orphans.filter (fun e => !((commitScan hashHeader
            hashTx sigVerify addrOfPk hashSTx chain pool
              orphans).committed.contains e.1)),
            e.1 = blockHash hashHeader e.2 := fun e he =>
          Hk e (hsub.subset he)
        have Hnd2 := Hnd.sublist (hsub.map Prod.fst)
        have Hdj2 : ∀ e ∈ orphans.filter (fun e => !((commitScan hashHeader
            hashTx sigVerify addrOfPk hashSTx chain pool
              orphans).committed.contains e.1)),
            alookup (commitScan hashHeader hashTx sigVerify addrOfPk hashSTx
              chain pool orphans).chain.blocks e.1 = none := by
          intro e he
          have he2 := List.mem_filter.1 he
          rcases hres : alookup (commitScan hashHeader hashTx sigVerify
              addrOfPk hashSTx chain pool orphans).chain.blocks e.1
            with _ | v
          · rfl
          · rcases hspec.2.2 e.1 (by rw [hres]; rfl) with hold | hcomm
            · rw [Hdj e (hsub.subset he)] at hold
              exact absurd hold (by simp)
            · exfalso
              have h2 := he2.2
              simp only [Bool.not_eq_true'] at h2
              have h4 : ¬ e.1 ∈ (commitScan hashHeader hashTx sigVerify
                  addrOfPk hashSTx chain pool orphans).committed := by
                simpa using h2
              exact h4 hcomm
        have hprog := commitScan_progress hashHeader hashTx sigVerify
          addrOfPk hashSTx orphans chain pool hnc2
        have hlt : (orphans.filter (fun e => !((commitScan hashHeader hashTx
            sigVerify addrOfPk hashSTx chain pool orphans).committed.contains
              e.1))).length < orphans.length := by
          refine List.length_filter_lt_length_iff_exists.2 ?_
          obtain ⟨e, he, hc⟩ := hprog
          exact ⟨e, he, by simpa using hc⟩
        have hrec := ihN _ (commitScan hashHeader hashTx sigVerify addrOfPk
            hashSTx chain pool orphans).chain
          (commitScan hashHeader hashTx sigVerify addrOfPk hashSTx chain
            pool orphans).pool (by omega) Hk2 Hnd2 Hdj2
        refine ⟨?_, ?_⟩
        · intro h b' hb
          exact hrec.1 h b' (hspec.1 h b' hb)
        · intro h b' hb
          rcases hrec.2 h b' hb with hmid | hfin
          · rcases hspec.2.1 h b' hmid with horig | hgood
            · exact Or.inl horig
            · obtain ⟨hkey, pb, hpb, hle⟩ := hgood
              exact Or.inr ⟨hkey, pb, hrec.1 _ pb hpb, hle⟩
          · exact Or.inr hfin

/-- The nonce search rewrites only the nonce: the difficulty field is that
of the initial candidate header. -/
theorem nonceSearch_difficulty (b : Block) (rand : List Nat) :
    (nonceSearch hashHeader b rand).header.difficulty
      = b.header.difficulty := by
  induction rand generalizing b with
  | nil => rfl
  | cons n rest ih =>
      rw [nonceSearch]
      dsimp only
      split
      · rfl
      · exact ih _

/-- Every block the miner's iteration reports mined (and inserts) has its
header hash strictly below its own header difficulty. -/
theorem minerStep_pow (merklePairHash : H256 → H256 → H256)
    (chain : Blockchain) (pool : Mempool) (content : Content) (ns : State)
    (r0 : Nat) (rand : List Nat) (ts : Nat) (b' : Block)
    (hmine : (minerStep hashHeader hashSTx merklePairHash chain pool
      content ns r0 rand ts).2.2 = some b') :
    blockHash hashHeader b' < b'.header.difficulty := by
  rw [minerStep] at hmine
  rcases hpb : alookup chain.blocks (Blockchain.tip chain) with _ | parent_block
  · rw [hpb] at hmine
    rcases hps : alookup chain.block_states (Blockchain.tip chain)
      with _ | pst <;> rw [hps] at hmine <;> exact absurd hmine (by simp)
  · rw [hpb] at hmine
    rcases hps : alookup chain.block_states (Blockchain.tip chain)
      with _ | pst
    · rw [hps] at hmine
      exact absurd hmine (by simp)
    · rw [hps] at hmine
      dsimp only at hmine
      by_cases h0 : content.transactions.length = 0
      · rw [if_pos h0] at hmine
        exact absurd hmine (by simp)
      · rw [if_neg h0] at hmine
        by_cases hcap : content.transactions.length < BLOCK_CAPACITY
        · rw [if_pos hcap] at hmine
          exact absurd hmine (by simp)
        · rw [if_neg hcap] at hmine
          by_cases hlt : blockHash hashHeader (nonceSearch hashHeader
              ⟨⟨Blockchain.tip chain, r0, parent_block.header.difficulty,
                ts, (MerkleTree.new hashSTx merklePairHash
                  content.transactions).root⟩, content⟩ rand)
              < parent_block.header.difficulty
          · rw [if_pos hlt] at hmine
            dsimp only at hmine
            simp only [Option.some.injEq] at hmine
            subst hmine
            rw [nonceSearch_difficulty]
            exact hlt
          · rw [if_neg hlt] at hmine
            exact absurd hmine (by simp)

end WorkerProofs2

/-! Concrete worker scenario used by counterexamples and witnesses: a
one-block chain whose tip has hash 0 (the header hash is instantiated as
the nonce field) and stored difficulty 10, an empty address list in the
tip state (so the per-block validator accepts any content), and a mempool
holding one transaction under key 5. -/

/-- Scenario header hash: the nonce field (injective on the headers in the
scenario). -/
def scnHashHeader : Header → H256 := fun hdr => hdr.nonce

/-- Scenario transaction hash (never consulted on the scenario's path). -/
def scnHashTx : Transaction → H256 := fun _ => 0

/-- Scenario signature oracle: accept everything. -/
def scnSigVerify : List Nat → H256 → List Nat → Bool := fun _ _ _ => true

/-- Scenario address derivation: a constant address outside every state. -/
def scnAddrOfPk : List Nat → H160 := fun _ => 99

/-- Scenario signed-transaction hash: the constant key 5. -/
def scnHashSTx : SignedTransaction → H256 := fun _ => 5

/-- Scenario tip block: nonce 0 (hash 0), stored difficulty 10. -/
def scnGenesis : Block := ⟨⟨7, 0, 10, 0, 0⟩, ⟨[]⟩⟩

/-- Scenario chain: only the tip block, with an empty state. -/
def scnChain : Blockchain :=
  ⟨[(0, scnGenesis)], [(0, 1)], [(0, ⟨[], []⟩)], 0⟩

/-- Scenario mempool transaction. -/
def scnTx : SignedTransaction := ⟨⟨0, 0, 0⟩, [], []⟩

/-- Scenario mempool: `scnTx` under its hash 5. -/
def scnPool : Mempool := [(5, scnTx)]

/-- A child of the scenario tip carrying `scnTx`, own difficulty 99,
nonce 1 (hash 1). -/
def scnBlock : Block := ⟨⟨0, 1, 99, 0, 0⟩, ⟨[scnTx]⟩⟩

/-- A child of the scenario tip with own difficulty 0 and hash 1: its hash
is at most the parent's stored difficulty (10) but not below its own. -/
def scnBlockBad : Block := ⟨⟨0, 1, 0, 0, 0⟩, ⟨[]⟩⟩

/-- The scenario chain after committing `scnBlockBad`. -/
def scnChainBad : Blockchain :=
  ⟨[(1, scnBlockBad), (0, scnGenesis)], [(1, 2), (0, 1)],
   [(1, ⟨[], []⟩), (0, ⟨[], []⟩)], 1⟩

/-- The scenario chain after committing `scnBlock`. -/
def scnChainGood : Blockchain :=
  ⟨[(1, scnBlock), (0, scnGenesis)], [(1, 2), (0, 1)],
   [(1, ⟨[], []⟩), (0, ⟨[], []⟩)], 1⟩

/-- C1, counterexample: the commit fixpoint admits `scnBlockBad` (its hash
1 is at most the parent's difficulty 10 and the validator accepts it), yet
the block's hash is not below its own header difficulty 0 — the claim's
strict inequality against the block's own difficulty fails for
worker-admitted blocks. -/
theorem c1_worker_pow_cex :
    alookup (commitLoop scnHashHeader scnHashTx scnSigVerify scnAddrOfPk
        scnHashSTx scnChain [] [(1, scnBlockBad)]).1.blocks 1
      = some scnBlockBad ∧
    ¬ blockHash scnHashHeader scnBlockBad
        < scnBlockBad.header.difficulty := by
  constructor
  · rw [commitLoop_eq_of_commits scnHashHeader scnHashTx scnSigVerify
      scnAddrOfPk scnHashSTx scnChain [] [(1, scnBlockBad)] rfl]
    show alookup (commitLoop scnHashHeader scnHashTx scnSigVerify
      scnAddrOfPk scnHashSTx scnChainBad [] []).1.blocks 1 = some scnBlockBad
    rw [commitLoop_eq_of_no_commits scnHashHeader scnHashTx scnSigVerify
      scnAddrOfPk scnHashSTx scnChainBad [] [] rfl]
    rfl
  · decide

/-- C1 (amended): on the miner's admission path every inserted block
satisfies the claim — its hash is strictly below its own header difficulty
(the miner copies the parent's difficulty into the header and re-checks
`hash < difficulty` before inserting).  On the worker's commit-fixpoint
path the check is `key ≤ parent difficulty`: every block the fixpoint adds
to the chain (from an orphan pool with correct keys, no duplicate keys and
keys disjoint from the chain) is keyed by its own hash, which is at most —
not strictly below — the stored difficulty of its parent block, and its
own header difficulty is unconstrained. -/
theorem c1_pow_admission
    (hashHeader : Header → H256) (hashTx : Transaction → H256)
    (sigVerify : List Nat → H256 → List Nat → Bool)
    (addrOfPk : List Nat → H160) (hashSTx : SignedTransaction → H256)
    (merklePairHash : H256 → H256 → H256)
    (chain : Blockchain) (pool : Mempool) (orphans : List (H256 × Block))
    (Hk : ∀ e ∈ orphans, e.1 = blockHash hashHeader e.2)
    (Hnd : (orphans.map Prod.fst).Nodup)
    (Hdj : ∀ e ∈ orphans, alookup chain.blocks e.1 = none) :
    (∀ (chain2 : Blockchain) (pool2 : Mempool) (content : Content)
        (ns : State) (r0 : Nat) (rand : List Nat) (ts : Nat) (b' : Block),
      (minerStep hashHeader hashSTx merklePairHash chain2 pool2 content ns
          r0 rand ts).2.2 = some b' →
      blockHash hashHeader b' < b'.header.difficulty) ∧
    (∀ h b', alookup (commitLoop hashHeader hashTx sigVerify addrOfPk
        hashSTx chain pool orphans).1.blocks h = some b' →
      alookup chain.blocks h = some b' ∨
      (h = blockHash hashHeader b' ∧ ∃ pb,
        alookup (commitLoop hashHeader hashTx sigVerify addrOfPk hashSTx
          chain pool orphans).1.blocks b'.header.parent = some pb ∧
        h ≤ pb.header.difficulty)) := by
  constructor
  · intro chain2 pool2 content ns r0 rand ts b' hmine
    exact minerStep_pow hashHeader hashSTx merklePairHash chain2 pool2
      content ns r0 rand ts b' hmine
  · exact (commitLoop_spec hashHeader hashTx sigVerify addrOfPk hashSTx
      orphans.length orphans chain pool (le_refl _) Hk Hnd Hdj).2

/-- C1, witness: the amended theorem applied to the concrete scenario
(one orphan, the well-formed child of the tip). -/
theorem c1_pow_admission_witness :
    (∀ e ∈ [((1 : H256), scnBlock)],
      e.1 = blockHash scnHashHeader e.2) ∧
    (([((1 : H256), scnBlock)].map Prod.fst).Nodup) ∧
    (∀ e ∈ [((1 : H256), scnBlock)],
      alookup scnChain.blocks e.1 = none) ∧
    ((∀ (chain2 : Blockchain) (pool2 : Mempool) (content : Content)
        (ns : State) (r0 : Nat) (rand : List Nat) (ts : Nat) (b' : Block),
      (minerStep scnHashHeader scnHashSTx (fun a b => a + b) chain2 pool2
          content ns r0 rand ts).2.2 = some b' →
      blockHash scnHashHeader b' < b'.header.difficulty) ∧
    (∀ h b', alookup (commitLoop scnHashHeader scnHashTx scnSigVerify
        scnAddrOfPk scnHashSTx scnChain scnPool
        [((1 : H256), scnBlock)]).1.blocks h = some b' →
      alookup scnChain.blocks h = some b' ∨
      (h = blockHash scnHashHeader b' ∧ ∃ pb,
        alookup (commitLoop scnHashHeader scnHashTx scnSigVerify scnAddrOfPk
          scnHashSTx scnChain scnPool
          [((1 : H256), scnBlock)]).1.blocks b'.header.parent = some pb ∧
        h ≤ pb.header.difficulty))) :=
  ⟨by decide, by decide, by decide,
    c1_pow_admission scnHashHeader scnHashTx scnSigVerify scnAddrOfPk
      scnHashSTx (fun a b => a + b) scnChain scnPool
      [((1 : H256), scnBlock)] (by decide) (by decide) (by decide)⟩

/-- C8: evaluation of the worker's commit fixpoint at the failing input.
`scnBlock` is a child of the pre-insert tip (parent 0 = tip), it is
committed, and yet its transaction survives in the mempool: the drain
condition compares the parent to the tip read after insertion (which has
just become the block itself), so the mempool is never drained exactly in
the case the claim requires it to be. -/
theorem c8_tip_child_commit_does_not_drain :
    scnBlock.header.parent = Blockchain.tip scnChain ∧
    alookup (blocksStep scnHashHeader scnHashTx scnSigVerify scnAddrOfPk
        scnHashSTx scnChain scnPool [] scnBlock).1.blocks 1 = some scnBlock ∧
    (blocksStep scnHashHeader scnHashTx scnSigVerify scnAddrOfPk scnHashSTx
        scnChain scnPool [] scnBlock).2.1 = scnPool := by
  refine ⟨rfl, ?_, ?_⟩
  · show alookup (commitLoop scnHashHeader scnHashTx scnSigVerify
        scnAddrOfPk scnHashSTx scnChain scnPool [(1, scnBlock)]).1.blocks 1
      = some scnBlock
    rw [commitLoop_eq_of_commits scnHashHeader scnHashTx scnSigVerify
      scnAddrOfPk scnHashSTx scnChain scnPool [(1, scnBlock)] rfl]
    show alookup (commitLoop scnHashHeader scnHashTx scnSigVerify
        scnAddrOfPk scnHashSTx scnChainGood scnPool []).1.blocks 1
      = some scnBlock
    rw [commitLoop_eq_of_no_commits scnHashHeader scnHashTx scnSigVerify
      scnAddrOfPk scnHashSTx scnChainGood scnPool [] rfl]
    rfl
  · show (commitLoop scnHashHeader scnHashTx scnSigVerify scnAddrOfPk
        scnHashSTx scnChain scnPool [(1, scnBlock)]).2.1 = scnPool
    rw [commitLoop_eq_of_commits scnHashHeader scnHashTx scnSigVerify
      scnAddrOfPk scnHashSTx scnChain scnPool [(1, scnBlock)] rfl]
    show (commitLoop scnHashHeader scnHashTx scnSigVerify scnAddrOfPk
        scnHashSTx scnChainGood scnPool []).2.1 = scnPool
    rw [commitLoop_eq_of_no_commits scnHashHeader scnHashTx scnSigVerify
      scnAddrOfPk scnHashSTx scnChainGood scnPool [] rfl]
    rfl

/-! ## Claim C7: Merkle proof round-trip -/

theorem szcntGo_pow (n : Nat) :
    ∀ (fuel sz cnt : Nat), n - sz ≤ fuel → 0 < sz →
      ∃ j, (szcntGo n sz cnt).1 = sz * 2 ^ j ∧
        (szcntGo n sz cnt).2 = cnt + j := by
  intro fuel
  induction fuel with
  | zero =>
      intro sz cnt hle hsz
      have h : ¬ (0 < sz ∧ sz < n) := by omega
      rw [szcntGo, if_neg h]
      exact ⟨0, by simp, by simp⟩
  | succ f ih =>
      intro sz cnt hle hsz
      by_cases h : sz < n
      · rw [szcntGo, if_pos ⟨hsz, h⟩]
        obtain ⟨j, h1, h2⟩ := ih (2 * sz) (cnt + 1) (by omega) (by omega)
        refine ⟨j + 1, ?_, ?_⟩
        · rw [h1, pow_succ]
          ring
        · rw [h2]
          omega
      · rw [szcntGo, if_neg (by omega)]
        exact ⟨0, by simp, by simp⟩

theorem szcntGo_ge (n : Nat) :
    ∀ (fuel sz cnt : Nat), n - sz ≤ fuel → 0 < sz →
      n ≤ (szcntGo n sz cnt).1 := by
  intro fuel
  induction fuel with
  | zero =>
      intro sz cnt hle hsz
      have h : ¬ (0 < sz ∧ sz < n) := by omega
      rw [szcntGo, if_neg h]
      omega
  | succ f ih =>
      intro sz cnt hle hsz
      by_cases h : sz < n
      · rw [szcntGo, if_pos ⟨hsz, h⟩]
        exact ih (2 * sz) (cnt + 1) (by omega) (by omega)
      · rw [szcntGo, if_neg (by omega)]
        omega

/-- The doubling loop yields exactly the power of two recorded by its
counter. -/
theorem nextPow2_eq_pow (n : Nat) : nextPow2 n = 2 ^ (szcntGo n 1 0).2 := by
  obtain ⟨j, h1, h2⟩ := szcntGo_pow n n 1 0 (by omega) (by omega)
  rw [nextPow2, h1, h2]
  simp

theorem nextPow2_ge (n : Nat) : n ≤ nextPow2 n :=
  szcntGo_ge n n 1 0 (by omega) (by omega)

theorem getD_setD_self {γ : Type} (a : Array γ) (i : Nat) (v d : γ)
    (h : i < a.size) : (a.setD i v).getD i d = v := by
  rw [Array.getD_eq_get?, Array.getD_get?_setD, if_pos h]

theorem getD_setD_ne {γ : Type} (a : Array γ) (i j : Nat) (v d : γ)
    (h : i ≠ j) : (a.setD i v).getD j d = a.getD j d := by
  rw [Array.getD_eq_get?, Array.getD_eq_get?, Array.setD]
  split
  · rw [Array.getElem?_set_ne]
    exact h
  · rfl

theorem getD_mkArray {γ : Type} (n : Nat) (x d : γ) (i : Nat) :
    (Array.mkArray n x).getD i d = if i < n then x else d := by
  rw [Array.getD_eq_get?, Array.getElem?_mkArray]
  by_cases h : i < n <;> simp [h]

/-- The leaf-filling loop: sizes are preserved, slots outside the written
window keep their contents and flags, and slot `i + j + sz - 1` receives
the hash of the `j`-th datum with its flag set. -/
theorem fillLeaves_spec {α H : Type} (hash : α → H) (sz : Nat)
    (hsz : 1 ≤ sz) :
    ∀ (ds : List α) (i : Nat) (tree : Array H) (valid : Array Bool),
      i + ds.length + sz - 1 ≤ tree.size →
      valid.size = tree.size →
      ((fillLeaves hash ds sz i tree valid).1.size = tree.size ∧
       (fillLeaves hash ds sz i tree valid).2.size = tree.size ∧
       (∀ x d, x < i + sz - 1 ∨ i + ds.length + sz - 1 ≤ x →
         (fillLeaves hash ds sz i tree valid).1.getD x d = tree.getD x d ∧
         (fillLeaves hash ds sz i tree valid).2.getD x false
           = valid.getD x false) ∧
       (∀ j, ∀ hj : j < ds.length, ∀ d : H,
         (fillLeaves hash ds sz i tree valid).1.getD (i + j + sz - 1) d
             = hash (ds.get ⟨j, hj⟩) ∧
         (fillLeaves hash ds sz i tree valid).2.getD (i + j + sz - 1) false
             = true)) := by
  intro ds
  induction ds with
  | nil =>
      intro i tree valid hsize hvs
      refine ⟨rfl, hvs, fun x d _ => ⟨rfl, rfl⟩, fun j hj => ?_⟩
      exact absurd hj (by simp)
  | cons a ds ih =>
      intro i tree valid hsize hvs
      have hw : i + sz - 1 < tree.size := by
        simp only [List.length_cons] at hsize
        omega
      have hw2 : i + sz - 1 < valid.size := by omega
      have hrec := ih (i + 1) (tree.setD (i + sz - 1) (hash a))
        (valid.setD (i + sz - 1) true)
        (by simp only [Array.size_setD, List.length_cons] at hsize ⊢; omega)
        (by simp only [Array.size_setD]; omega)
      rw [fillLeaves]
      obtain ⟨hs1, hs2, hframe, hleaf⟩ := hrec
      refine ⟨by rw [hs1]; simp, by rw [hs2]; simp, ?_, ?_⟩
      · intro x d hx
        have hx2 : x < (i + 1) + sz - 1 ∨ (i + 1) + ds.length + sz - 1 ≤ x := by
          simp only [List.length_cons] at hx
          omega
        have hne : i + sz - 1 ≠ x := by
          simp only [List.length_cons] at hx
          omega
        obtain ⟨hf1, hf2⟩ := hframe x d hx2
        constructor
        · rw [hf1, getD_setD_ne _ _ _ _ _ hne]
        · rw [hf2, getD_setD_ne _ _ _ _ _ hne]
      · intro j hj d
        match j with
        | 0 =>
            have hx2 : i + 0 + sz - 1 < (i + 1) + sz - 1 ∨
                (i + 1) + ds.length + sz - 1 ≤ i + 0 + sz - 1 := by omega
            obtain ⟨hf1, hf2⟩ := hframe (i + 0 + sz - 1) d hx2
            have he : i + 0 + sz - 1 = i + sz - 1 := by omega
            constructor
            · rw [hf1, he, getD_setD_self _ _ _ _ hw]
              rfl
            · rw [hf2, he, getD_setD_self _ _ _ _ hw2]
        | j + 1 =>
            have hj2 : j < ds.length := by
              simp only [List.length_cons] at hj
              omega
            have he : i + (j + 1) + sz - 1 = (i + 1) + j + sz - 1 := by omega
            obtain ⟨hl1, hl2⟩ := hleaf j hj2 d
            constructor
            · rw [he, hl1]
              rfl
            · rw [he, hl2]

theorem buildPairs_eq_stop {H : Type} [Inhabited H] (ph : H → H → H)
    (L i : Nat) (tree : Array H) (valid : Array Bool) (h : ¬ i < L) :
    buildPairs ph L i tree valid = (tree, valid) := by
  rw [buildPairs, if_neg h]

theorem buildPairs_eq_break {H : Type} [Inhabited H] (ph : H → H → H)
    (L i : Nat) (tree : Array H) (valid : Array Bool) (h : i < L)
    (hv : valid.getD (L - 1 + i) false = false) :
    buildPairs ph L i tree valid = (tree, valid) := by
  rw [buildPairs, if_pos h]
  dsimp only
  rw [if_pos hv]

theorem buildPairs_eq_copy {H : Type} [Inhabited H] (ph : H → H → H)
    (L i : Nat) (tree : Array H) (valid : Array Bool) (h : i < L)
    (hv : valid.getD (L - 1 + i) false = true)
    (hv2 : valid.getD (L + i) false = false) :
    buildPairs ph L i tree valid =
      buildPairs ph L (i + 2)
        ((tree.setD (L + i) (tree.getD (L - 1 + i) default)).setD
          ((L - 1 + i - 1) / 2)
          (ph ((tree.setD (L + i) (tree.getD (L - 1 + i) default)).getD
              (L - 1 + i) default)
            ((tree.setD (L + i) (tree.getD (L - 1 + i) default)).getD
              (L + i) default)))
        (valid.setD ((L - 1 + i - 1) / 2) true) := by
  rw [buildPairs, if_pos h]
  dsimp only
  have hnv : ¬ valid.getD (L - 1 + i) false = false := by rw [hv]; simp
  rw [if_neg hnv]
  have hr : L - 1 + i + 1 = L + i := by omega
  rw [hr, if_pos hv2]

theorem buildPairs_eq_hash {H : Type} [Inhabited H] (ph : H → H → H)
    (L i : Nat) (tree : Array H) (valid : Array Bool) (h : i < L)
    (hv : valid.getD (L - 1 + i) false = true)
    (hv2 : valid.getD (L + i) false = true) :
    buildPairs ph L i tree valid =
      buildPairs ph L (i + 2)
        (tree.setD ((L - 1 + i - 1) / 2)
          (ph (tree.getD (L - 1 + i) default) (tree.getD (L + i) default)))
        (valid.setD ((L - 1 + i - 1) / 2) true) := by
  rw [buildPairs, if_pos h]
  dsimp only
  have hnv : ¬ valid.getD (L - 1 + i) false = false := by rw [hv]; simp
  rw [if_neg hnv]
  have hr : L - 1 + i + 1 = L + i := by omega
  have hnv2 : ¬ valid.getD (L + i) false = false := by rw [hv2]; simp
  rw [hr, if_neg hnv2]

/-- The level pass at level size `L`, started at even offset `i`, when the
level's valid prefix has length `c`: sizes are preserved; flags change
exactly at the parents `L / 2 - 1 + j / 2` of the processed even offsets
`j ∈ [i, c)`, which become valid; tree slots change only at those parents
and at the copy target `L + j` of a final lone left child (`j + 1 = c`);
and each processed parent holds the pair hash of its two children in the
resulting array. -/
theorem buildPairs_spec {H : Type} [Inhabited H] (ph : H → H → H)
    (L c : Nat) (hL2 : 2 ≤ L) (hLe : L % 2 = 0) (hcL : c ≤ L) :
    ∀ (fuel : Nat), ∀ (i : Nat) (tree : Array H) (valid : Array Bool),
      L - i ≤ fuel → i % 2 = 0 →
      2 * L - 1 ≤ tree.size → valid.size = tree.size →
      (∀ j, j < L → (valid.getD (L - 1 + j) false = true ↔ j < c)) →
      ((buildPairs ph L i tree valid).1.size = tree.size ∧
       (buildPairs ph L i tree valid).2.size = valid.size ∧
       (∀ x, (∀ j, i ≤ j → j < c → j % 2 = 0 → x ≠ L / 2 - 1 + j / 2) →
         (buildPairs ph L i tree valid).2.getD x false
           = valid.getD x false) ∧
       (∀ j, i ≤ j → j < c → j % 2 = 0 →
         (buildPairs ph L i tree valid).2.getD (L / 2 - 1 + j / 2) false
           = true) ∧
       (∀ x,
         (∀ j, i ≤ j → j < c → j % 2 = 0 →
           x ≠ L / 2 - 1 + j / 2 ∧ (x = L + j → j + 1 ≠ c)) →
         (buildPairs ph L i tree valid).1.getD x default
           = tree.getD x default) ∧
       (∀ j, i ≤ j → j < c → j % 2 = 0 →
         (buildPairs ph L i tree valid).1.getD (L / 2 - 1 + j / 2) default =
           ph ((buildPairs ph L i tree valid).1.getD (L - 1 + j) default)
             ((buildPairs ph L i tree valid).1.getD (L + j) default))) := by
  intro fuel
  induction fuel with
  | zero =>
      intro i tree valid hfuel hie hts hvs hval
      rw [buildPairs_eq_stop ph L i tree valid (by omega)]
      refine ⟨rfl, rfl, fun x _ => rfl, ?_, fun x _ => rfl, ?_⟩
      · intro j hij hjc hje
        exact absurd hjc (by omega)
      · intro j hij hjc hje
        exact absurd hjc (by omega)
  | succ f ihf =>
      intro i tree valid hfuel hie hts hvs hval
      by_cases hi : i < L
      · by_cases hvl : valid.getD (L - 1 + i) false = true
        · have hic : i < c := (hval i hi).mp hvl
          have hp : (L - 1 + i - 1) / 2 = L / 2 - 1 + i / 2 := by omega
          by_cases hvr : valid.getD (L + i) false = true
          · -- both children valid: hash the pair into the parent
            rw [buildPairs_eq_hash ph L i tree valid hi hvl hvr, hp]
            set T2 := tree.setD (L / 2 - 1 + i / 2)
              (ph (tree.getD (L - 1 + i) default)
                (tree.getD (L + i) default)) with hT2
            set V2 := valid.setD (L / 2 - 1 + i / 2) true with hV2
            have hT2sz : T2.size = tree.size := by
              rw [hT2]; simp [Array.size_setD]
            have hV2sz : V2.size = valid.size := by
              rw [hV2]; simp [Array.size_setD]
            have hval2 : ∀ j, j < L →
                (V2.getD (L - 1 + j) false = true ↔ j < c) := by
              intro j hj
              rw [hV2, getD_setD_ne valid _ _ _ _ (by omega)]
              exact hval j hj
            obtain ⟨hS1, hS2, hFv, hPv, hFt, hHt⟩ :=
              ihf (i + 2) T2 V2 (by omega) (by omega)
                (by rw [hT2sz]; omega)
                (by rw [hV2sz, hT2sz]; exact hvs) hval2
            refine ⟨?_, ?_, ?_, ?_, ?_, ?_⟩
            · rw [hS1, hT2sz]
            · rw [hS2, hV2sz]
            · intro x hx
              have hx2 : ∀ j, i + 2 ≤ j → j < c → j % 2 = 0 →
                  x ≠ L / 2 - 1 + j / 2 :=
                fun j h1 h2 h3 => hx j (by omega) h2 h3
              rw [hFv x hx2, hV2]
              exact getD_setD_ne valid _ _ _ _
                (Ne.symm (hx i le_rfl hic hie))
            · intro j hij hjc hje
              rcases Nat.eq_or_lt_of_le hij with heq | hlt
              · rw [← heq]
                have hxa : ∀ j2, i + 2 ≤ j2 → j2 < c → j2 % 2 = 0 →
                    L / 2 - 1 + i / 2 ≠ L / 2 - 1 + j2 / 2 := by
                  intro j2 h1 h2 h3
                  omega
                rw [hFv _ hxa, hV2]
                exact getD_setD_self valid _ true false (by omega)
              · exact hPv j (by omega) hjc hje
            · intro x hx
              have hx2 : ∀ j, i + 2 ≤ j → j < c → j % 2 = 0 →
                  x ≠ L / 2 - 1 + j / 2 ∧ (x = L + j → j + 1 ≠ c) :=
                fun j h1 h2 h3 => hx j (by omega) h2 h3
              rw [hFt x hx2, hT2]
              exact getD_setD_ne tree _ _ _ _
                (Ne.symm (hx i le_rfl hic hie).1)
            · intro j hij hjc hje
              rcases Nat.eq_or_lt_of_le hij with heq | hlt
              · rw [← heq]
                have hxp : ∀ j2, i + 2 ≤ j2 → j2 < c → j2 % 2 = 0 →
                    L / 2 - 1 + i / 2 ≠ L / 2 - 1 + j2 / 2 ∧
                      (L / 2 - 1 + i / 2 = L + j2 → j2 + 1 ≠ c) := by
                  intro j2 h1 h2 h3
                  exact ⟨by omega, fun hxe => absurd hxe (by omega)⟩
                have hxl : ∀ j2, i + 2 ≤ j2 → j2 < c → j2 % 2 = 0 →
                    L - 1 + i ≠ L / 2 - 1 + j2 / 2 ∧
                      (L - 1 + i = L + j2 → j2 + 1 ≠ c) := by
                  intro j2 h1 h2 h3
                  exact ⟨by omega, fun hxe => absurd hxe (by omega)⟩
                have hxr : ∀ j2, i + 2 ≤ j2 → j2 < c → j2 % 2 = 0 →
                    L + i ≠ L / 2 - 1 + j2 / 2 ∧
                      (L + i = L + j2 → j2 + 1 ≠ c) := by
                  intro j2 h1 h2 h3
                  exact ⟨by omega, fun hxe => absurd hxe (by omega)⟩
                have h1 : (buildPairs ph L (i + 2) T2 V2).1.getD
                    (L / 2 - 1 + i / 2) default
                    = ph (tree.getD (L - 1 + i) default)
                        (tree.getD (L + i) default) := by
                  rw [hFt _ hxp, hT2]
                  exact getD_setD_self tree _ _ _ (by omega)
                have h2 : (buildPairs ph L (i + 2) T2 V2).1.getD
                    (L - 1 + i) default = tree.getD (L - 1 + i) default := by
                  rw [hFt _ hxl, hT2]
                  exact getD_setD_ne tree _ _ _ _ (by omega)
                have h3 : (buildPairs ph L (i + 2) T2 V2).1.getD
                    (L + i) default = tree.getD (L + i) default := by
                  rw [hFt _ hxr, hT2]
                  exact getD_setD_ne tree _ _ _ _ (by omega)
                rw [h1, h2, h3]
              · exact hHt j (by omega) hjc hje
          · -- lone left child: copy it right, then hash
            have hvr2 : valid.getD (L + i) false = false := by
              simpa using hvr
            have hnc : ¬ (i + 1 < c) := by
              intro hlt
              have h2 := (hval (i + 1) (by omega)).mpr hlt
              have hidx : L - 1 + (i + 1) = L + i := by omega
              rw [hidx, hvr2] at h2
              exact Bool.noConfusion h2
            have hceq : c = i + 1 := by omega
            rw [buildPairs_eq_copy ph L i tree valid hi hvl hvr2, hp]
            have hT1l : (tree.setD (L + i)
                (tree.getD (L - 1 + i) default)).getD (L - 1 + i) default
                = tree.getD (L - 1 + i) default :=
              getD_setD_ne tree _ _ _ _ (by omega)
            have hT1r : (tree.setD (L + i)
                (tree.getD (L - 1 + i) default)).getD (L + i) default
                = tree.getD (L - 1 + i) default :=
              getD_setD_self tree _ _ _ (by omega)
            rw [hT1l, hT1r]
            set T2 := (tree.setD (L + i)
                (tree.getD (L - 1 + i) default)).setD (L / 2 - 1 + i / 2)
              (ph (tree.getD (L - 1 + i) default)
                (tree.getD (L - 1 + i) default)) with hT2
            set V2 := valid.setD (L / 2 - 1 + i / 2) true with hV2
            have hT2sz : T2.size = tree.size := by
              rw [hT2]; simp [Array.size_setD]
            have hV2sz : V2.size = valid.size := by
              rw [hV2]; simp [Array.size_setD]
            have hval2 : ∀ j, j < L →
                (V2.getD (L - 1 + j) false = true ↔ j < c) := by
              intro j hj
              rw [hV2, getD_setD_ne valid _ _ _ _ (by omega)]
              exact hval j hj
            obtain ⟨hS1, hS2, hFv, hPv, hFt, hHt⟩ :=
              ihf (i + 2) T2 V2 (by omega) (by omega)
                (by rw [hT2sz]; omega)
                (by rw [hV2sz, hT2sz]; exact hvs) hval2
            have hFv2 : ∀ x, (buildPairs ph L (i + 2) T2 V2).2.getD x false
                = V2.getD x false :=
              fun x => hFv x (fun j h1 h2 h3 => absurd h2 (by omega))
            have hFt2 : ∀ x, (buildPairs ph L (i + 2) T2 V2).1.getD x default
                = T2.getD x default :=
              fun x => hFt x (fun j h1 h2 h3 => absurd h2 (by omega))
            refine ⟨?_, ?_, ?_, ?_, ?_, ?_⟩
            · rw [hS1, hT2sz]
            · rw [hS2, hV2sz]
            · intro x hx
              rw [hFv2 x, hV2]
              exact getD_setD_ne valid _ _ _ _
                (Ne.symm (hx i le_rfl hic hie))
            · intro j hij hjc hje
              have hj2 : j = i := by omega
              rw [hj2, hFv2 _, hV2]
              exact getD_setD_self valid _ true false (by omega)
            · intro x hx
              have hxi := hx i le_rfl hic hie
              have hxr : x ≠ L + i := fun hxe => (hxi.2 hxe) hceq.symm
              rw [hFt2 x, hT2, getD_setD_ne _ _ _ _ _ (Ne.symm hxi.1)]
              exact getD_setD_ne tree _ _ _ _ (Ne.symm hxr)
            · intro j hij hjc hje
              have hj2 : j = i := by omega
              rw [hj2]
              have h1 : (buildPairs ph L (i + 2) T2 V2).1.getD
                  (L / 2 - 1 + i / 2) default
                  = ph (tree.getD (L - 1 + i) default)
                      (tree.getD (L - 1 + i) default) := by
                rw [hFt2 _, hT2]
                refine getD_setD_self _ _ _ _ ?_
                simp only [Array.size_setD]
                omega
              have h2 : (buildPairs ph L (i + 2) T2 V2).1.getD
                  (L - 1 + i) default = tree.getD (L - 1 + i) default := by
                rw [hFt2 _, hT2, getD_setD_ne _ _ _ _ _ (by omega)]
                exact getD_setD_ne tree _ _ _ _ (by omega)
              have h3 : (buildPairs ph L (i + 2) T2 V2).1.getD
                  (L + i) default = tree.getD (L - 1 + i) default := by
                rw [hFt2 _, hT2, getD_setD_ne _ _ _ _ _ (by omega)]
                exact getD_setD_self tree _ _ _ (by omega)
              rw [h1, h2, h3]
        · -- invalid left child: the pass stops here
          have hvl2 : valid.getD (L - 1 + i) false = false := by
            simpa using hvl
          have hnc : ¬ (i < c) := by
            intro hlt
            have h2 := (hval i hi).mpr hlt
            rw [hvl2] at h2
            exact Bool.noConfusion h2
          rw [buildPairs_eq_break ph L i tree valid hi hvl2]
          refine ⟨rfl, rfl, fun x _ => rfl, ?_, fun x _ => rfl, ?_⟩
          · intro j hij hjc hje
            exact absurd hjc (by omega)
          · intro j hij hjc hje
            exact absurd hjc (by omega)
      · rw [buildPairs_eq_stop ph L i tree valid hi]
        refine ⟨rfl, rfl, fun x _ => rfl, ?_, fun x _ => rfl, ?_⟩
        · intro j hij hjc hje
          exact absurd hjc (by omega)
        · intro j hij hjc hje
          exact absurd hjc (by omega)

theorem buildLevels_eq_step {H : Type} [Inhabited H] (ph : H → H → H)
    (L : Nat) (tree : Array H) (valid : Array Bool) (h : 1 < L) :
    buildLevels ph L tree valid =
      buildLevels ph (L / 2) (buildPairs ph L 0 tree valid).1
        (buildPairs ph L 0 tree valid).2 := by
  rw [buildLevels, if_pos h]

/-- The bottom-up level loop, entered at level size `2 ^ e` on a tree of
`2 * 2 ^ k - 1` slots holding `n` leaves: if the valid flags describe the
prefix counts `(n - 1) / 2 ^ t + 1` at every already-filled level, every
slot above the current level is still unset, and every valid internal node
already below the current level holds the hash of its children, then after
the loop every level has its prefix count, every valid internal node holds
the hash of its children, and the leaf slots are unchanged. -/
theorem buildLevels_spec {H : Type} [Inhabited H] (ph : H → H → H)
    (k n : Nat) (hn : 1 ≤ n) (hnk : n ≤ 2 ^ k) (leafv : Nat → H) :
    ∀ (e : Nat) (tree : Array H) (valid : Array Bool),
      e ≤ k →
      tree.size = 2 * 2 ^ k - 1 →
      valid.size = tree.size →
      (∀ t j, t ≤ k - e → j < 2 ^ (k - t) →
        (valid.getD (2 ^ (k - t) - 1 + j) false = true ↔
          j < (n - 1) / 2 ^ t + 1)) →
      (∀ x, x < 2 ^ e - 1 → valid.getD x false = false) →
      (∀ p, 2 ^ e - 1 ≤ p → p < 2 ^ k - 1 → valid.getD p false = true →
        tree.getD p default =
          ph (tree.getD (2 * p + 1) default)
            (tree.getD (2 * p + 2) default)) →
      (∀ i, i < n → tree.getD (2 ^ k - 1 + i) default = leafv i) →
      ((buildLevels ph (2 ^ e) tree valid).1.size = tree.size ∧
       (∀ t j, t ≤ k → j < 2 ^ (k - t) →
        ((buildLevels ph (2 ^ e) tree valid).2.getD (2 ^ (k - t) - 1 + j)
            false = true ↔ j < (n - 1) / 2 ^ t + 1)) ∧
       (∀ p, p < 2 ^ k - 1 →
         (buildLevels ph (2 ^ e) tree valid).2.getD p false = true →
         (buildLevels ph (2 ^ e) tree valid).1.getD p default =
           ph ((buildLevels ph (2 ^ e) tree valid).1.getD
               (2 * p + 1) default)
             ((buildLevels ph (2 ^ e) tree valid).1.getD
               (2 * p + 2) default)) ∧
       (∀ i, i < n → (buildLevels ph (2 ^ e) tree valid).1.getD
         (2 ^ k - 1 + i) default = leafv i)) := by
  intro e
  induction e with
  | zero =>
      intro tree valid hek htsz hvs hval habove hheap hleaf
      have hstop : buildLevels ph (2 ^ 0) tree valid = (tree, valid) := by
        rw [buildLevels, if_neg (by norm_num)]
      rw [hstop]
      refine ⟨rfl, ?_, ?_, ?_⟩
      · intro t j ht hj
        exact hval t j (by omega) hj
      · intro p hp hflag
        exact hheap p (by simp) hp hflag
      · exact hleaf
  | succ e ihe =>
      intro tree valid hek htsz hvs hval habove hheap hleaf
      have hEpos : 0 < 2 ^ e := pow_pos (by omega) e
      have hKpos : 0 < 2 ^ k := pow_pos (by omega) k
      have hE1 : 2 ^ (e + 1) = 2 * 2 ^ e := by rw [pow_succ]; ring
      have hE1k : 2 ^ (e + 1) ≤ 2 ^ k := Nat.pow_le_pow_right (by omega) hek
      have hexp1 : k - (k - e - 1) = e + 1 := by omega
      have hexp2 : k - (k - e) = e := by omega
      have hDlt : (n - 1) / 2 ^ (k - e - 1) < 2 ^ (e + 1) := by
        have hmul : 2 ^ (e + 1) * 2 ^ (k - e - 1) = 2 ^ k := by
          rw [← pow_add]
          congr 1
          omega
        have hlt : n - 1 < 2 ^ (e + 1) * 2 ^ (k - e - 1) := by
          rw [hmul]
          omega
        exact (Nat.div_lt_iff_lt_mul (pow_pos (by omega) _)).mpr hlt
      have hdd : (n - 1) / 2 ^ (k - e) = (n - 1) / 2 ^ (k - e - 1) / 2 := by
        rw [Nat.div_div_eq_div_mul]
        congr 1
        rw [← pow_succ]
        congr 1
        omega
      have hvalL : ∀ j, j < 2 ^ (e + 1) →
          (valid.getD (2 ^ (e + 1) - 1 + j) false = true ↔
            j < (n - 1) / 2 ^ (k - e - 1) + 1) := by
        intro j hj
        have hv := hval (k - e - 1) j (by omega) (by rw [hexp1]; exact hj)
        rw [hexp1] at hv
        exact hv
      obtain ⟨S1, S2, Fv, Pv, Ft, Ht⟩ :=
        buildPairs_spec ph (2 ^ (e + 1)) ((n - 1) / 2 ^ (k - e - 1) + 1)
          (by omega) (by omega) (by omega) (2 ^ (e + 1)) 0 tree valid
          (by omega) (by omega) (by omega) hvs hvalL
      have hlevE : ∀ j, j < 2 ^ e →
          ((buildPairs ph (2 ^ (e + 1)) 0 tree valid).2.getD
              (2 ^ e - 1 + j) false = true ↔
            j < (n - 1) / 2 ^ (k - e) + 1) := by
        intro j hj
        constructor
        · intro hflag
          by_contra hgt
          have hne : ∀ j2, 0 ≤ j2 → j2 < (n - 1) / 2 ^ (k - e - 1) + 1 →
              j2 % 2 = 0 →
              2 ^ e - 1 + j ≠ 2 ^ (e + 1) / 2 - 1 + j2 / 2 := by
            intro j2 h1 h2 h3
            omega
          rw [Fv _ hne, habove _ (by omega)] at hflag
          exact Bool.noConfusion hflag
        · intro hjle
          have hpv := Pv (2 * j) (Nat.zero_le _) (by omega) (by omega)
          have hidx : 2 ^ (e + 1) / 2 - 1 + 2 * j / 2 = 2 ^ e - 1 + j := by
            omega
          rw [hidx] at hpv
          exact hpv
      have hval2 : ∀ t j, t ≤ k - e → j < 2 ^ (k - t) →
          ((buildPairs ph (2 ^ (e + 1)) 0 tree valid).2.getD
              (2 ^ (k - t) - 1 + j) false = true ↔
            j < (n - 1) / 2 ^ t + 1) := by
        intro t j ht hj
        by_cases hte : t = k - e
        · subst hte
          rw [hexp2] at hj ⊢
          exact hlevE j hj
        · have hge : 2 ^ (e + 1) ≤ 2 ^ (k - t) :=
            Nat.pow_le_pow_right (by omega) (by omega)
          have hne : ∀ j2, 0 ≤ j2 → j2 < (n - 1) / 2 ^ (k - e - 1) + 1 →
              j2 % 2 = 0 →
              2 ^ (k - t) - 1 + j ≠ 2 ^ (e + 1) / 2 - 1 + j2 / 2 := by
            intro j2 h1 h2 h3
            omega
          rw [Fv _ hne]
          exact hval t j (by omega) hj
      have hab2 : ∀ x, x < 2 ^ e - 1 →
          (buildPairs ph (2 ^ (e + 1)) 0 tree valid).2.getD x false
            = false := by
        intro x hx
        have hne : ∀ j2, 0 ≤ j2 → j2 < (n - 1) / 2 ^ (k - e - 1) + 1 →
            j2 % 2 = 0 → x ≠ 2 ^ (e + 1) / 2 - 1 + j2 / 2 := by
          intro j2 h1 h2 h3
          omega
        rw [Fv x hne]
        exact habove x (by omega)
      have hheap2 : ∀ p, 2 ^ e - 1 ≤ p → p < 2 ^ k - 1 →
          (buildPairs ph (2 ^ (e + 1)) 0 tree valid).2.getD p false = true →
          (buildPairs ph (2 ^ (e + 1)) 0 tree valid).1.getD p default =
            ph ((buildPairs ph (2 ^ (e + 1)) 0 tree valid).1.getD
                (2 * p + 1) default)
              ((buildPairs ph (2 ^ (e + 1)) 0 tree valid).1.getD
                (2 * p + 2) default) := by
        intro p hpe hpk hflag
        by_cases hpl : p < 2 ^ (e + 1) - 1
        · obtain ⟨j, hpj, hjlt⟩ : ∃ j, p = 2 ^ e - 1 + j ∧ j < 2 ^ e :=
            ⟨p - (2 ^ e - 1), by omega, by omega⟩
          have hflag2 : j < (n - 1) / 2 ^ (k - e) + 1 := by
            refine (hlevE j hjlt).mp ?_
            rw [← hpj]
            exact hflag
          have hht := Ht (2 * j) (Nat.zero_le _) (by omega) (by omega)
          have hi1 : 2 ^ (e + 1) / 2 - 1 + 2 * j / 2 = p := by omega
          have hi2 : 2 ^ (e + 1) - 1 + 2 * j = 2 * p + 1 := by omega
          have hi3 : 2 ^ (e + 1) + 2 * j = 2 * p + 2 := by omega
          rw [hi1, hi2, hi3] at hht
          exact hht
        · have hnp : ∀ j2, 0 ≤ j2 → j2 < (n - 1) / 2 ^ (k - e - 1) + 1 →
              j2 % 2 = 0 → p ≠ 2 ^ (e + 1) / 2 - 1 + j2 / 2 := by
            intro j2 h1 h2 h3
            omega
          have hvold : valid.getD p false = true := by
            rw [Fv p hnp] at hflag
            exact hflag
          have havp : ∀ j2, 0 ≤ j2 → j2 < (n - 1) / 2 ^ (k - e - 1) + 1 →
              j2 % 2 = 0 → p ≠ 2 ^ (e + 1) / 2 - 1 + j2 / 2 ∧
                (p = 2 ^ (e + 1) + j2 →
                  j2 + 1 ≠ (n - 1) / 2 ^ (k - e - 1) + 1) := by
            intro j2 h1 h2 h3
            refine ⟨by omega, ?_⟩
            intro hpe2 hcc
            have hfl := hvalL (j2 + 1) (by omega)
            have hidxp : 2 ^ (e + 1) - 1 + (j2 + 1) = p := by omega
            rw [hidxp] at hfl
            have := hfl.mp hvold
            omega
          have hav1 : ∀ j2, 0 ≤ j2 → j2 < (n - 1) / 2 ^ (k - e - 1) + 1 →
              j2 % 2 = 0 → 2 * p + 1 ≠ 2 ^ (e + 1) / 2 - 1 + j2 / 2 ∧
                (2 * p + 1 = 2 ^ (e + 1) + j2 →
                  j2 + 1 ≠ (n - 1) / 2 ^ (k - e - 1) + 1) := by
            intro j2 h1 h2 h3
            exact ⟨by omega, fun hxe => absurd hxe (by omega)⟩
          have hav2 : ∀ j2, 0 ≤ j2 → j2 < (n - 1) / 2 ^ (k - e - 1) + 1 →
              j2 % 2 = 0 → 2 * p + 2 ≠ 2 ^ (e + 1) / 2 - 1 + j2 / 2 ∧
                (2 * p + 2 = 2 ^ (e + 1) + j2 →
                  j2 + 1 ≠ (n - 1) / 2 ^ (k - e - 1) + 1) := by
            intro j2 h1 h2 h3
            exact ⟨by omega, fun hxe => absurd hxe (by omega)⟩
          rw [Ft p havp, Ft _ hav1, Ft _ hav2]
          exact hheap p (by omega) hpk hvold
      have hleaf2 : ∀ i2, i2 < n →
          (buildPairs ph (2 ^ (e + 1)) 0 tree valid).1.getD
            (2 ^ k - 1 + i2) default = leafv i2 := by
        intro i2 hi2
        have hflagx : valid.getD (2 ^ k - 1 + i2) false = true := by
          have h0 := hval 0 i2 (Nat.zero_le _) (by rw [Nat.sub_zero]; omega)
          rw [Nat.sub_zero, pow_zero, Nat.div_one] at h0
          exact h0.mpr (by omega)
        have hax : ∀ j2, 0 ≤ j2 → j2 < (n - 1) / 2 ^ (k - e - 1) + 1 →
            j2 % 2 = 0 → 2 ^ k - 1 + i2 ≠ 2 ^ (e + 1) / 2 - 1 + j2 / 2 ∧
              (2 ^ k - 1 + i2 = 2 ^ (e + 1) + j2 →
                j2 + 1 ≠ (n - 1) / 2 ^ (k - e - 1) + 1) := by
          intro j2 h1 h2 h3
          refine ⟨by omega, ?_⟩
          intro hpe2 hcc
          have hfl := hvalL (j2 + 1) (by omega)
          have hidxp : 2 ^ (e + 1) - 1 + (j2 + 1) = 2 ^ k - 1 + i2 := by
            omega
          rw [hidxp] at hfl
          have := hfl.mp hflagx
          omega
        rw [Ft _ hax]
        exact hleaf i2 hi2
      rw [buildLevels_eq_step ph (2 ^ (e + 1)) tree valid (by omega)]
      have hhalf : 2 ^ (e + 1) / 2 = 2 ^ e := by omega
      rw [hhalf]
      obtain ⟨I1, I2, I3, I4⟩ :=
        ihe (buildPairs ph (2 ^ (e + 1)) 0 tree valid).1
          (buildPairs ph (2 ^ (e + 1)) 0 tree valid).2
          (by omega) (by rw [S1, htsz]) (by rw [S2, hvs, ← S1])
          hval2 hab2 hheap2 hleaf2
      refine ⟨?_, I2, I3, I4⟩
      rw [I1, S1]

theorem getD_map_get {α H : Type} [Inhabited H] (hash : α → H)
    (l : List α) :
    ∀ (i : Nat) (hi : i < l.length),
      (l.map hash).getD i default = hash (l.get ⟨i, hi⟩) := by
  induction l with
  | nil =>
      intro i hi
      exact absurd hi (by simp)
  | cons a l ih =>
      intro i hi
      match i with
      | 0 => rfl
      | i + 1 => exact ih i (by simpa using hi)

/-- `MerkleTree::new` on a nonempty list: the saved leaf-level size is the
power of two `2 ^ k` counted by the doubling loop, the node array has
`2 * 2 ^ k - 1` slots, the valid flags describe the prefix counts
`(n - 1) / 2 ^ t + 1` at every level, every valid internal node holds the
pair hash of its children, and leaf slot `2 ^ k - 1 + i` holds the hash of
the `i`-th datum. -/
theorem merkleNew_spec {α H : Type} [Inhabited H] (hash : α → H)
    (ph : H → H → H) (data : List α) (hn : 1 ≤ data.length) :
    (MerkleTree.new hash ph data).sz = 2 ^ (szcntGo data.length 1 0).2 ∧
    (MerkleTree.new hash ph data).tree.size
      = 2 * 2 ^ (szcntGo data.length 1 0).2 - 1 ∧
    (∀ t j, t ≤ (szcntGo data.length 1 0).2 →
      j < 2 ^ ((szcntGo data.length 1 0).2 - t) →
      ((MerkleTree.new hash ph data).valid.getD
          (2 ^ ((szcntGo data.length 1 0).2 - t) - 1 + j) false = true ↔
        j < (data.length - 1) / 2 ^ t + 1)) ∧
    (∀ p, p < 2 ^ (szcntGo data.length 1 0).2 - 1 →
      (MerkleTree.new hash ph data).valid.getD p false = true →
      (MerkleTree.new hash ph data).tree.getD p default =
        ph ((MerkleTree.new hash ph data).tree.getD (2 * p + 1) default)
          ((MerkleTree.new hash ph data).tree.getD (2 * p + 2) default)) ∧
    (∀ i, ∀ hi : i < data.length,
      (MerkleTree.new hash ph data).tree.getD
        (2 ^ (szcntGo data.length 1 0).2 - 1 + i) default
        = hash (data.get ⟨i, hi⟩)) := by
  set k := (szcntGo data.length 1 0).2 with hk
  have hpow : nextPow2 data.length = 2 ^ k := by
    rw [hk]
    exact nextPow2_eq_pow data.length
  have hge : data.length ≤ 2 ^ k := by
    rw [← hpow]
    exact nextPow2_ge data.length
  have hp1 : 1 ≤ 2 ^ k := Nat.one_le_pow k 2 (by omega)
  obtain ⟨F1, F2, FF, FL⟩ :=
    fillLeaves_spec hash (2 ^ k) hp1 data 0
      (Array.mkArray (2 * 2 ^ k - 1) (default : H))
      (Array.mkArray (2 * 2 ^ k - 1) false)
      (by rw [Array.size_mkArray]; omega)
      (by rw [Array.size_mkArray, Array.size_mkArray])
  set TV := fillLeaves hash data (2 ^ k) 0
      (Array.mkArray (2 * 2 ^ k - 1) (default : H))
      (Array.mkArray (2 * 2 ^ k - 1) false) with hTV
  have hval0 : ∀ t j, t ≤ k - k → j < 2 ^ (k - t) →
      (TV.2.getD (2 ^ (k - t) - 1 + j) false = true ↔
        j < (data.length - 1) / 2 ^ t + 1) := by
    intro t j ht hj
    have ht0 : t = 0 := by omega
    subst ht0
    rw [Nat.sub_zero] at hj ⊢
    rw [pow_zero, Nat.div_one]
    constructor
    · intro hflag
      by_contra hge2
      have hfr := (FF (2 ^ k - 1 + j) default (Or.inr (by omega))).2
      rw [hfr, getD_mkArray, ite_self] at hflag
      exact Bool.noConfusion hflag
    · intro hlt
      have hl := (FL j (by omega) default).2
      have hidx : 0 + j + 2 ^ k - 1 = 2 ^ k - 1 + j := by omega
      rw [hidx] at hl
      exact hl
  have hab0 : ∀ x, x < 2 ^ k - 1 → TV.2.getD x false = false := by
    intro x hx
    have hfr := (FF x default (Or.inl (by omega))).2
    rw [hfr, getD_mkArray, ite_self]
  have hheap0 : ∀ p, 2 ^ k - 1 ≤ p → p < 2 ^ k - 1 →
      TV.2.getD p false = true →
      TV.1.getD p default =
        ph (TV.1.getD (2 * p + 1) default)
          (TV.1.getD (2 * p + 2) default) := by
    intro p h1 h2 h3
    exact absurd h2 (by omega)
  have hleaf0 : ∀ i, i < data.length →
      TV.1.getD (2 ^ k - 1 + i) default
        = (data.map hash).getD i default := by
    intro i hi
    have hl := (FL i hi default).1
    have hidx : 0 + i + 2 ^ k - 1 = 2 ^ k - 1 + i := by omega
    rw [hidx] at hl
    rw [hl, getD_map_get hash data i hi]
  obtain ⟨B1, B2, B3, B4⟩ :=
    buildLevels_spec ph k data.length hn hge
      (fun i => (data.map hash).getD i default) k TV.1 TV.2 le_rfl
      (by rw [F1, Array.size_mkArray]) (by rw [F2, ← F1])
      hval0 hab0 hheap0 hleaf0
  have hnt : MerkleTree.new hash ph data =
      ⟨(buildLevels ph (2 ^ k) TV.1 TV.2).1,
       (buildLevels ph (2 ^ k) TV.1 TV.2).2, 2 ^ k⟩ := by
    unfold MerkleTree.new
    dsimp only
    rw [hpow, ← hTV]
  rw [hnt]
  refine ⟨rfl, ?_, B2, B3, ?_⟩
  · show (buildLevels ph (2 ^ k) TV.1 TV.2).1.size = 2 * 2 ^ k - 1
    rw [B1, F1, Array.size_mkArray]
  · intro i hi
    show (buildLevels ph (2 ^ k) TV.1 TV.2).1.getD (2 ^ k - 1 + i) default
      = hash (data.get ⟨i, hi⟩)
    rw [B4 i hi]
    exact getD_map_get hash data i hi

/-- Proof-side abstraction (not in the source): the list of sibling
hashes the `proof` climb reads, from within-level index `m` at level
exponent `j` down to the root. -/
def sibChain {H : Type} [Inhabited H] (tr : Array H) : Nat → Nat → List H
  | 0, _ => []
  | j + 1, m =>
      tr.getD (2 ^ (j + 1) - 1 +
          (if m % 2 = 0 then m + 1 else m - 1)) default
        :: sibChain tr j (m / 2)

theorem sibChain_length {H : Type} [Inhabited H] (tr : Array H) :
    ∀ (j m : Nat), (sibChain tr j m).length = j := by
  intro j
  induction j with
  | zero =>
      intro m
      rfl
  | succ j ih =>
      intro m
      simp [sibChain, ih]

/-- The `proof` climb loop from the leaf slot `2 ^ j - 1 + m` appends
exactly the sibling chain of `m`. -/
theorem proofGo_eq_sibChain {H : Type} [Inhabited H] (t : MerkleTree H) :
    ∀ (j m : Nat) (acc : List H), m < 2 ^ j →
      proofGo t (2 ^ j - 1 + m) acc = acc ++ sibChain t.tree j m := by
  intro j
  induction j with
  | zero =>
      intro m acc hm
      rw [pow_zero] at hm
      have hm0 : m = 0 := by omega
      subst hm0
      rw [pow_zero]
      show proofGo t 0 acc = acc ++ []
      rw [proofGo, if_neg (by omega)]
      simp
  | succ j ih =>
      intro m acc hm
      have hE : 2 ^ (j + 1) = 2 * 2 ^ j := by rw [pow_succ]; ring
      have hEpos : 0 < 2 ^ j := pow_pos (by omega) j
      have hidxpos : 0 < 2 ^ (j + 1) - 1 + m := by omega
      rw [proofGo, if_pos hidxpos]
      dsimp only
      have hp : (2 ^ (j + 1) - 1 + m - 1) / 2 = 2 ^ j - 1 + m / 2 := by
        omega
      have hs : (if (2 ^ (j + 1) - 1 + m) % 2 = 1
            then 2 ^ (j + 1) - 1 + m + 1 else 2 ^ (j + 1) - 1 + m - 1)
          = 2 ^ (j + 1) - 1 + (if m % 2 = 0 then m + 1 else m - 1) := by
        by_cases hme : m % 2 = 0
        · rw [if_pos (by omega), if_pos hme]
          omega
        · rw [if_neg (by omega), if_neg hme]
          omega
      rw [hs, hp, ih (m / 2) (acc ++ [t.tree.getD (2 ^ (j + 1) - 1 +
            (if m % 2 = 0 then m + 1 else m - 1)) default]) (by omega)]
      rw [sibChain]
      simp

/-- `MerkleTree::proof` on a tree whose saved size is `2 ^ k`, at a valid
in-range leaf index, is the sibling chain of that index. -/
theorem merkleProof_eq {H : Type} [Inhabited H] (t : MerkleTree H)
    (k index : Nat) (hsz : t.sz = 2 ^ k) (hidx : index < 2 ^ k)
    (hval : t.valid.getD (2 ^ k - 1 + index) false = true) :
    t.proof index = sibChain t.tree k index := by
  unfold MerkleTree.proof
  dsimp only
  rw [hsz]
  rw [if_pos ⟨by omega, hval⟩]
  have h := proofGo_eq_sibChain t k index [] hidx
  simpa using h

/-- The `verify` fold over a sibling chain climbs to the root: on a tree
whose flags carry the per-level prefix counts and whose valid internal
nodes hold the hash of their children, folding the sibling chain of an
in-prefix index against that node's value yields the node at slot 0. -/
theorem verGo_sibChain {H : Type} [Inhabited H] (ph : H → H → H)
    (T : Array H) (V : Array Bool) (k n : Nat) (hn : 1 ≤ n)
    (hnk : n ≤ 2 ^ k)
    (hval : ∀ t j, t ≤ k → j < 2 ^ (k - t) →
      (V.getD (2 ^ (k - t) - 1 + j) false = true ↔
        j < (n - 1) / 2 ^ t + 1))
    (hheap : ∀ p, p < 2 ^ k - 1 → V.getD p false = true →
      T.getD p default =
        ph (T.getD (2 * p + 1) default) (T.getD (2 * p + 2) default)) :
    ∀ (j m : Nat), j ≤ k → m ≤ (n - 1) / 2 ^ (k - j) →
      verGo ph (sibChain T j m) m (T.getD (2 ^ j - 1 + m) default)
        = T.getD 0 default := by
  intro j
  induction j with
  | zero =>
      intro m hj hm
      have hz : (n - 1) / 2 ^ (k - 0) = 0 := by
        rw [Nat.sub_zero]
        exact Nat.div_eq_of_lt (by omega)
      have hm0 : m = 0 := by omega
      subst hm0
      rw [pow_zero]
      rfl
  | succ j ih =>
      intro m hj hm
      have hE : 2 ^ (j + 1) = 2 * 2 ^ j := by rw [pow_succ]; ring
      have hEpos : 0 < 2 ^ j := pow_pos (by omega) j
      have hdd2 : (n - 1) / 2 ^ (k - (j + 1)) / 2 = (n - 1) / 2 ^ (k - j) := by
        rw [Nat.div_div_eq_div_mul]
        congr 1
        rw [← pow_succ]
        congr 1
        omega
      have hmj : m / 2 ≤ (n - 1) / 2 ^ (k - j) := by
        rw [← hdd2]
        exact Nat.div_le_div_right hm
      have hjlt : (n - 1) / 2 ^ (k - j) < 2 ^ j := by
        have hmul : 2 ^ j * 2 ^ (k - j) = 2 ^ k := by
          rw [← pow_add]
          congr 1
          omega
        refine (Nat.div_lt_iff_lt_mul (pow_pos (by omega) _)).mpr ?_
        rw [hmul]
        omega
      have hmlt : m / 2 < 2 ^ j := by omega
      have hexpj : k - (k - j) = j := by omega
      have hpv : V.getD (2 ^ j - 1 + m / 2) false = true := by
        have hv := hval (k - j) (m / 2) (by omega) (by rw [hexpj]; exact hmlt)
        rw [hexpj] at hv
        exact hv.mpr (by omega)
      have hplt : 2 ^ j - 1 + m / 2 < 2 ^ k - 1 := by
        have hle : 2 ^ (j + 1) ≤ 2 ^ k := Nat.pow_le_pow_right (by omega) hj
        omega
      have hph := hheap (2 ^ j - 1 + m / 2) hplt hpv
      have hc1 : 2 * (2 ^ j - 1 + m / 2) + 1
          = 2 ^ (j + 1) - 1 + 2 * (m / 2) := by omega
      have hc2 : 2 * (2 ^ j - 1 + m / 2) + 2
          = 2 ^ (j + 1) - 1 + (2 * (m / 2) + 1) := by omega
      rw [hc1, hc2] at hph
      rw [sibChain, verGo]
      by_cases hme : m % 2 = 0
      · rw [if_pos hme, if_pos hme]
        have hm2 : 2 * (m / 2) = m := by omega
        rw [hm2] at hph
        rw [← hph]
        exact ih (m / 2) (by omega) hmj
      · rw [if_neg hme, if_neg hme]
        have hm3 : 2 * (m / 2) + 1 = m := by omega
        rw [hm3] at hph
        have hm2 : 2 * (m / 2) = m - 1 := by omega
        rw [hm2] at hph
        rw [← hph]
        exact ih (m / 2) (by omega) hmj

/-- Claim C7: for every non-empty list of leaves and every index
`i < n`, `verify(t.root(), hash(leaf_i), t.proof(i), i, n)` returns
`true`, where `t = MerkleTree::new(leaves)` (generic in the leaf hash and
the pair hash). -/
theorem c7_merkle_proof_roundtrip {α H : Type} [DecidableEq H]
    [Inhabited H] (hash : α → H) (ph : H → H → H) (data : List α)
    (index : Nat) (hidx : index < data.length) :
    verify ph (MerkleTree.new hash ph data).root
      (hash (data.get ⟨index, hidx⟩))
      ((MerkleTree.new hash ph data).proof index) index data.length
      = true := by
  have hn : 1 ≤ data.length := by omega
  obtain ⟨M1, M2, M3, M4, M5⟩ := merkleNew_spec hash ph data hn
  set k := (szcntGo data.length 1 0).2 with hk
  have hge : data.length ≤ 2 ^ k := by
    rw [hk, ← nextPow2_eq_pow data.length]
    exact nextPow2_ge data.length
  have hp1 : 1 ≤ 2 ^ k := Nat.one_le_pow k 2 (by omega)
  have hflag : (MerkleTree.new hash ph data).valid.getD
      (2 ^ k - 1 + index) false = true := by
    have h0 := M3 0 index (Nat.zero_le _) (by rw [Nat.sub_zero]; omega)
    rw [Nat.sub_zero, pow_zero, Nat.div_one] at h0
    exact h0.mpr (by omega)
  have hpf : (MerkleTree.new hash ph data).proof index
      = sibChain (MerkleTree.new hash ph data).tree k index :=
    merkleProof_eq _ k index M1 (by omega) hflag
  have hclimb := verGo_sibChain ph (MerkleTree.new hash ph data).tree
      (MerkleTree.new hash ph data).valid k data.length hn hge M3 M4
      k index le_rfl
      (by rw [Nat.sub_self, pow_zero, Nat.div_one]; omega)
  have hlen : ((MerkleTree.new hash ph data).proof index).length = k := by
    rw [hpf, sibChain_length]
  unfold verify
  dsimp only
  rw [← hk]
  have hguard : ¬ (data.length ≤ index ∨
      ((MerkleTree.new hash ph data).proof index).length ≠ k) := by
    intro hd
    rcases hd with h1 | h2
    · omega
    · exact h2 hlen
  rw [if_neg hguard]
  refine decide_eq_true ?_
  rw [hpf, ← M5 index hidx]
  unfold MerkleTree.root
  exact hclimb.symm

theorem c7_merkle_proof_roundtrip_witness :
    1 < [3, 5].length ∧
    verify (fun a b : Nat => a + b + 1)
      (MerkleTree.new (fun x : Nat => x) (fun a b : Nat => a + b + 1)
        [3, 5]).root
      ((fun x : Nat => x) ([3, 5].get ⟨1, by decide⟩))
      ((MerkleTree.new (fun x : Nat => x) (fun a b : Nat => a + b + 1)
        [3, 5]).proof 1) 1 [3, 5].length = true :=
  ⟨by decide, c7_merkle_proof_roundtrip (fun x : Nat => x)
    (fun a b : Nat => a + b + 1) [3, 5] 1 (by decide)⟩

end Prism